import Mathlib

/-!
Verification of the Shelf CRDT core (`shelf-crdt`): clocks (`clock.rs`),
JSON-like values (`json.rs`), the recursive `Shelf` structure with `merge`,
`secure_merge`, `prune` and `garbage_collect` (`wrap_crdt.rs`), and the
state-vector / delta protocol (`state_vector.rs`).

Modelling conventions:
* Rust `HashMap<String, _>` children are modelled as association lists sorted
  strictly by key; Rust `HashMap` equality (same key set, pointwise equal) then
  coincides with list equality, and the key-wise insertion loops of the source
  are modelled by key-wise zips of the sorted lists.
* The three clock types `LamportTimestamp`, `DotClock` and `SecureClock` are
  modelled as one sum type `Clock`; each `PartialOrd` impl of `clock.rs`
  becomes one arm of `Clock.cmp` (cross-variant comparisons compare the
  logical counters and turn `Equal` into incomparable, as in the source).
* `f32` is modelled by its order structure: NaN (incomparable to everything),
  the two infinities, and finite values as rationals.
* The `panic!` in `Shelf::merge` / `secure_merge` is modelled by `Option`:
  `none` is the panic.
* `DefaultHasher` (std, not part of this repository) is an abstract parameter
  `H : Nat → Value → Nat` of the secure-clock operations.
-/

namespace ShelfCRDT

/-- Total comparison derived from a linear order (the `partial_cmp` semantics
of Rust `usize`, `isize` and `String`, which always answer `Some`). -/
def lcmp {α : Type _} [LinearOrder α] (a b : α) : Ordering :=
  if a < b then .lt else if a = b then .eq else .gt

theorem lcmp_eq_iff {α : Type _} [LinearOrder α] (a b : α) :
    lcmp a b = .eq ↔ a = b := by
  unfold lcmp
  split
  · next h => simp [ne_of_lt h]
  · split
    · next h => simp [h]
    · next h => simp [h]

theorem lcmp_self {α : Type _} [LinearOrder α] (a : α) : lcmp a a = .eq := by
  simp [lcmp]

theorem lcmp_lt_iff {α : Type _} [LinearOrder α] (a b : α) :
    lcmp a b = .lt ↔ a < b := by
  unfold lcmp
  split
  · next h => simpa using h
  · next h => split <;> simpa using h

theorem lcmp_gt_iff {α : Type _} [LinearOrder α] (a b : α) :
    lcmp a b = .gt ↔ b < a := by
  unfold lcmp
  split
  · next h => simpa using asymm h
  · next h1 =>
    split
    · next h2 => subst h2; simp
    · next h2 =>
      have hba : b < a := ((lt_trichotomy a b).resolve_left h1).resolve_left h2
      simpa using hba

theorem lcmp_swap {α : Type _} [LinearOrder α] (a b : α) :
    lcmp b a = (lcmp a b).swap := by
  unfold lcmp
  rcases lt_trichotomy a b with h | h | h
  · rw [if_neg (asymm h), if_neg (Ne.symm (ne_of_lt h)), if_pos h]; rfl
  · subst h; simp [lt_irrefl, Ordering.swap]
  · rw [if_pos h, if_neg (asymm h), if_neg (ne_of_gt h)]; rfl

/-- The clock family of `clock.rs`: `LamportTimestamp(usize)`,
`DotClock { client_id, clock }` and `SecureClock { clock, hash }`,
as one tagged sum (cf. spec §9: "a tagged enum over `{Lamport, Dot, Secure}`
is acceptable"). -/
inductive Clock where
  | lamport (counter : Nat)
  | dot (clientId : Nat) (counter : Nat)
  | secure (counter : Nat) (hash : Nat)
deriving DecidableEq, Repr

namespace Clock

/-- `LogicalClock::get_logical_clock`. -/
def logical : Clock → Nat
  | .lamport n => n
  | .dot _ n => n
  | .secure n _ => n

/-- The shared shape of the clock `partial_cmp` impls: compare the counters
first; a counter tie is resolved by the variant-specific rule. -/
def tieBreak (o : Ordering) (tie : Option Ordering) : Option Ordering :=
  match o with
  | .eq => tie
  | o => some o

/-- The `PartialOrd` impls of `clock.rs`, one arm per impl.
Same-variant arms: `LamportTimestamp` is totally ordered; `DotClock`
compares counters and is `Equal` only for equal client ids; `SecureClock`
compares counters and is `Equal` only for equal hashes.  Cross-variant arms
(`PartialOrd<DotClock> for LamportTimestamp` etc.) compare the logical
counters and turn `Equal` into incomparable. -/
def cmp : Clock → Clock → Option Ordering
  | .lamport a, .lamport b => some (lcmp a b)
  | .dot i a, .dot j b => tieBreak (lcmp a b) (if i = j then some .eq else none)
  | .secure a h1, .secure b h2 => tieBreak (lcmp a b) (if h1 = h2 then some .eq else none)
  | c1, c2 => tieBreak (lcmp c1.logical c2.logical) none

theorem tieBreak_eq_eq (o : Ordering) (t : Option Ordering) :
    tieBreak o t = some .eq ↔ o = .eq ∧ t = some .eq := by
  cases o <;> simp [tieBreak]

theorem tieBreak_swap (o : Ordering) (t t' : Option Ordering)
    (h : t' = t.map Ordering.swap) :
    tieBreak o.swap t' = (tieBreak o t).map Ordering.swap := by
  cases o <;> simp [tieBreak, h, Ordering.swap]

/-- `Clock.cmp` answers `Equal` exactly on identical clocks. -/
theorem cmp_eq_iff (a b : Clock) : cmp a b = some .eq ↔ a = b := by
  cases a <;> cases b <;> simp only [cmp, logical, tieBreak_eq_eq]
  case lamport.lamport x y => simp [lcmp_eq_iff]
  case dot.dot i x j y =>
    simp only [lcmp_eq_iff, Clock.dot.injEq]
    constructor
    · rintro ⟨rfl, h⟩
      split at h
      · next hij => exact ⟨hij, rfl⟩
      · exact absurd h (by simp)
    · rintro ⟨rfl, rfl⟩; simp
  case secure.secure x h1 y h2 =>
    simp only [lcmp_eq_iff, Clock.secure.injEq]
    constructor
    · rintro ⟨rfl, h⟩
      split at h
      · next hij => exact ⟨rfl, hij⟩
      · exact absurd h (by simp)
    · rintro ⟨rfl, rfl⟩; simp
  all_goals simp

theorem cmp_self (a : Clock) : cmp a a = some .eq := (cmp_eq_iff a a).mpr rfl

/-- Swapping the arguments of `Clock.cmp` swaps the ordering. -/
theorem cmp_swap (a b : Clock) : cmp b a = (cmp a b).map Ordering.swap := by
  cases a <;> cases b <;> simp only [cmp, logical] <;> rw [lcmp_swap]
  case lamport.lamport x y => cases lcmp x y <;> rfl
  case dot.dot i x j y =>
    refine tieBreak_swap _ _ _ ?_
    rcases eq_or_ne i j with h | h
    · subst h; simp [Ordering.swap]
    · rw [if_neg h, if_neg (Ne.symm h)]; rfl
  case secure.secure x h1 y h2 =>
    refine tieBreak_swap _ _ _ ?_
    rcases eq_or_ne h1 h2 with h | h
    · subst h; simp [Ordering.swap]
    · rw [if_neg h, if_neg (Ne.symm h)]; rfl
  all_goals exact tieBreak_swap _ _ _ rfl

end Clock

/-- The order structure of `f32` (`Value::Float`): NaN is incomparable to
everything (including itself); all other values are totally ordered.  Finite
values are represented by rationals. -/
inductive F32 where
  | nan
  | neginf
  | fin (q : Rat)
  | inf
deriving DecidableEq, Repr

/-- IEEE `partial_cmp` on `f32`. -/
def F32.cmp : F32 → F32 → Option Ordering
  | .nan, _ => none
  | _, .nan => none
  | .neginf, .neginf => some .eq
  | .neginf, _ => some .lt
  | _, .neginf => some .gt
  | .inf, .inf => some .eq
  | _, .inf => some .lt
  | .inf, _ => some .gt
  | .fin a, .fin b => some (lcmp a b)

theorem F32.fcmp_swap (a b : F32) :
    F32.cmp b a = (F32.cmp a b).map Ordering.swap := by
  cases a <;> cases b <;> first
    | rfl
    | (simp only [F32.cmp]; rw [lcmp_swap]; simp [Ordering.swap])

/-- `json.rs` `Value`: a JSON-like discriminated union. -/
inductive Value where
  | str (s : String)
  | int (i : Int)
  | float (f : F32)
  | bool (b : Bool)
  | arr (elems : List Value)
  | null

namespace Value

mutual

def beqV : Value → Value → Bool
  | .str a, .str b => a == b
  | .int a, .int b => a == b
  | .float a, .float b => a == b
  | .bool a, .bool b => a == b
  | .arr a, .arr b => beqVList a b
  | .null, .null => true
  | _, _ => false

def beqVList : List Value → List Value → Bool
  | [], [] => true
  | a :: as1, b :: bs => beqV a b && beqVList as1 bs
  | _, _ => false

end

mutual

theorem beqV_iff : ∀ a b : Value, beqV a b = true ↔ a = b
  | .str a, .str b => by simp [beqV]
  | .int a, .int b => by simp [beqV]
  | .float a, .float b => by simp [beqV]
  | .bool a, .bool b => by simp [beqV]
  | .arr a, .arr b => by simp [beqV, beqVList_iff a b]
  | .null, .null => by simp [beqV]
  | .str _, .int _ | .str _, .float _ | .str _, .bool _ | .str _, .arr _ | .str _, .null
  | .int _, .str _ | .int _, .float _ | .int _, .bool _ | .int _, .arr _ | .int _, .null
  | .float _, .str _ | .float _, .int _ | .float _, .bool _ | .float _, .arr _ | .float _, .null
  | .bool _, .str _ | .bool _, .int _ | .bool _, .float _ | .bool _, .arr _ | .bool _, .null
  | .arr _, .str _ | .arr _, .int _ | .arr _, .float _ | .arr _, .bool _ | .arr _, .null
  | .null, .str _ | .null, .int _ | .null, .float _ | .null, .bool _ | .null, .arr _ => by
    simp [beqV]

theorem beqVList_iff : ∀ a b : List Value, beqVList a b = true ↔ a = b
  | [], [] => by simp [beqVList]
  | a :: as1, b :: bs => by
    simp [beqVList, beqV_iff a b, beqVList_iff as1 bs]
  | [], _ :: _ => by simp [beqVList]
  | _ :: _, [] => by simp [beqVList]

end

instance instDecEqValue : DecidableEq Value :=
  fun a b => decidable_of_iff _ (beqV_iff a b)

/-- `Value::type_rank`. -/
def typeRank : Value → Nat
  | .arr _ => 5
  | .str _ => 4
  | .int _ => 3
  | .float _ => 2
  | .bool _ => 1
  | .null => 0

/-- Comparison on `Bool` (`false < true`, as in Rust). -/
def boolCmp (a b : Bool) : Ordering :=
  match a, b with
  | false, false => .eq
  | false, true => .lt
  | true, false => .gt
  | true, true => .eq

mutual

/-- `PartialOrd for Value` (`json.rs`): compare type ranks first; within equal
rank compare natively.  Matching constructors directly is equivalent: the
rank-compare arm here only fires for distinct constructors (the source's
same-rank `unreachable!` arm cannot fire), and for equal constructors the rank
compare would be `Equal`. -/
def cmp : Value → Value → Option Ordering
  | .bool b1, .bool b2 => some (boolCmp b1 b2)
  | .int i1, .int i2 => some (lcmp i1 i2)
  | .float f1, .float f2 => F32.cmp f1 f2
  | .str s1, .str s2 => some (lcmp s1 s2)
  | .arr l1, .arr l2 => lexCmp l1 l2
  | .null, .null => some .eq
  | a, b => some (lcmp a.typeRank b.typeRank)

/-- `PartialOrd for Vec<Value>`: lexicographic comparison, propagating
incomparability of elements, then comparing lengths. -/
def lexCmp : List Value → List Value → Option Ordering
  | [], [] => some .eq
  | [], _ :: _ => some .lt
  | _ :: _, [] => some .gt
  | a :: as1, b :: bs =>
    match cmp a b with
    | some .eq => lexCmp as1 bs
    | o => o

end

mutual

/-- Swapping the arguments of `Value.cmp` swaps the ordering
(antisymmetry of the `PartialOrd` impl). -/
theorem vcmp_swap : ∀ a b : Value, cmp b a = (cmp a b).map Ordering.swap
  | .bool b1, .bool b2 => by cases b1 <;> cases b2 <;> rfl
  | .int i1, .int i2 => by
    simp only [cmp]; rw [lcmp_swap]; cases lcmp i1 i2 <;> rfl
  | .float f1, .float f2 => F32.fcmp_swap f1 f2
  | .str s1, .str s2 => by
    simp only [cmp]; rw [lcmp_swap]; cases lcmp s1 s2 <;> rfl
  | .arr l1, .arr l2 => lexCmp_swap l1 l2
  | .null, .null => rfl
  | .str _, .int _ | .str _, .float _ | .str _, .bool _ | .str _, .arr _ | .str _, .null
  | .int _, .str _ | .int _, .float _ | .int _, .bool _ | .int _, .arr _ | .int _, .null
  | .float _, .str _ | .float _, .int _ | .float _, .bool _ | .float _, .arr _ | .float _, .null
  | .bool _, .str _ | .bool _, .int _ | .bool _, .float _ | .bool _, .arr _ | .bool _, .null
  | .arr _, .str _ | .arr _, .int _ | .arr _, .float _ | .arr _, .bool _ | .arr _, .null
  | .null, .str _ | .null, .int _ | .null, .float _ | .null, .bool _ | .null, .arr _ => by
    simp only [cmp, typeRank]; rfl

theorem lexCmp_swap : ∀ a b : List Value, lexCmp b a = (lexCmp a b).map Ordering.swap
  | [], [] => rfl
  | [], _ :: _ => rfl
  | _ :: _, [] => rfl
  | a :: as1, b :: bs => by
    simp only [lexCmp]
    rw [vcmp_swap a b]
    cases h : cmp a b with
    | none => rfl
    | some o => cases o <;> simp [Ordering.swap, lexCmp_swap as1 bs]

end

end Value

/-- `wrap_crdt.rs` `Shelf`: either a `Value` leaf with a value clock, or a
`Map` of named sub-shelves with a map clock.  The `HashMap<String, Shelf>` is
modelled as an association list sorted strictly by key. -/
inductive Shelf where
  | value (v : Value) (clock : Clock)
  | map (shelves : List (String × Shelf)) (clock : Clock)

namespace Shelf

mutual

def beqS : Shelf → Shelf → Bool
  | .value v c, .value v' c' => v == v' && c == c'
  | .map s c, .map s' c' => beqSChildren s s' && c == c'
  | _, _ => false

def beqSChildren : List (String × Shelf) → List (String × Shelf) → Bool
  | [], [] => true
  | (k, v) :: rest, (k', v') :: rest' => k == k' && beqS v v' && beqSChildren rest rest'
  | _, _ => false

end

mutual

theorem beqS_iff : ∀ a b : Shelf, beqS a b = true ↔ a = b
  | .value v c, .value v' c' => by simp [beqS]
  | .map s c, .map s' c' => by simp [beqS, beqSChildren_iff s s']
  | .value _ _, .map _ _ => by simp [beqS]
  | .map _ _, .value _ _ => by simp [beqS]

theorem beqSChildren_iff :
    ∀ a b : List (String × Shelf), beqSChildren a b = true ↔ a = b
  | [], [] => by simp [beqSChildren]
  | (k, v) :: rest, (k', v') :: rest' => by
    simp [beqSChildren, beqS_iff v v', beqSChildren_iff rest rest', Prod.ext_iff,
      and_assoc]
  | [], _ :: _ => by simp [beqSChildren]
  | _ :: _, [] => by simp [beqSChildren]

end

instance instDecEqShelf : DecidableEq Shelf :=
  fun a b => decidable_of_iff _ (beqS_iff a b)

/-- `Shelf::get_clock`.  With the unified `Clock` type the `ShelfClock`
wrapper of the source disappears: its `PartialOrd` dispatches back to the
underlying clock impls, which is exactly `Clock.cmp`. -/
def getClock : Shelf → Clock
  | .value _ c => c
  | .map _ c => c

/-- `Shelf::get`. -/
def get1 (s : Shelf) (key : String) : Option Shelf :=
  match s with
  | .map shelves _ => shelves.lookup key
  | _ => none

/-- `PartialOrd for Shelf` (`wrap_crdt.rs` lines 119-184): Map-vs-Map with
equal clocks is incomparable; Map-vs-Value resolves clock ties and
incomparability in favour of the Map; Value-vs-Value resolves them by
comparing the values. -/
def cmpS : Shelf → Shelf → Option Ordering
  | .map _ c1, .map _ c2 =>
    match Clock.cmp c1 c2 with
    | some .eq => none
    | o => o
  | .map _ c1, .value _ c2 =>
    match Clock.cmp c1 c2 with
    | some .eq | none => some .gt
    | o => o
  | .value _ c1, .map _ c2 =>
    match Clock.cmp c1 c2 with
    | some .eq | none => some .lt
    | o => o
  | .value v1 c1, .value v2 c2 =>
    match Clock.cmp c1 c2 with
    | some .eq | none => Value.cmp v1 v2
    | o => o

/-- Swapping the arguments of `Shelf::partial_cmp` swaps the ordering. -/
theorem cmpS_swap (a b : Shelf) : cmpS b a = (cmpS a b).map Ordering.swap := by
  cases a <;> cases b <;> simp only [cmpS] <;> rw [Clock.cmp_swap]
  case value.value v1 c1 v2 c2 =>
    cases hc : Clock.cmp c1 c2 with
    | none => simp [Value.vcmp_swap v1 v2]
    | some o => cases o <;> simp [Ordering.swap, Value.vcmp_swap v1 v2]
  all_goals
    cases hc : Clock.cmp _ _ with
    | none => simp [Ordering.swap]
    | some o => cases o <;> simp [Ordering.swap]

mutual

/-- `Shelf::merge` (`wrap_crdt.rs` lines 361-407).  The branch order follows
the source's `match (self, other, clock_order)`; the `panic!` branch is
`none`.  The clock of a merged Map is `if this_clock > other_clock
{ this_clock } else { other_clock }`, where Rust `>` means
`partial_cmp == Some(Greater)`. -/
def merge (a b : Shelf) : Option Shelf :=
  match a, b, Clock.cmp a.getClock b.getClock with
  | _, other, some .lt => some other
  | this, _, some .gt => some this
  | .map as1 c1, .map bs c2, _ =>
    (mergeChildren as1 bs).map (fun cs =>
      .map cs (if Clock.cmp c1 c2 = some .gt then c1 else c2))
  | this, _, some .eq => some this
  | this, other, none =>
    match cmpS this other with
    | some .gt | some .eq => some this
    | some .lt => some other
    | none => none

/-- The child-merging loop of `Shelf::merge`: for each key of `other`, merge
into the existing entry or insert; keys only in `self` are kept.  On sorted
association lists this is a key-wise zip. -/
def mergeChildren : List (String × Shelf) → List (String × Shelf) →
    Option (List (String × Shelf))
  | [], bs => some bs
  | as1, [] => some as1
  | (ka, va) :: as1, (kb, vb) :: bs =>
    match lcmp ka kb with
    | .lt => (mergeChildren as1 ((kb, vb) :: bs)).map (fun cs => (ka, va) :: cs)
    | .gt => (mergeChildren ((ka, va) :: as1) bs).map (fun cs => (kb, vb) :: cs)
    | .eq => do
      let m ← merge va vb
      let rest ← mergeChildren as1 bs
      pure ((ka, m) :: rest)

end


/-- `Shelf::prune` (`wrap_crdt.rs` lines 320-331): in a Map, retain exactly
the children whose clock is not strictly less than the map clock
(`Greater`, `Equal` and incomparable are retained); a Value is unchanged. -/
def prune : Shelf → Shelf
  | .map shelves c =>
    .map (shelves.filter (fun kv => decide (Clock.cmp kv.2.getClock c ≠ some .lt))) c
  | s => s

mutual

/-- `Shelf::garbage_collect`: `prune`, then recurse into the remaining
children. -/
def garbageCollect : Shelf → Shelf
  | .value v c => .value v c
  | .map shelves c => .map (gcList c shelves) c

def gcList (c : Clock) : List (String × Shelf) → List (String × Shelf)
  | [] => []
  | (k, v) :: rest =>
    if Clock.cmp v.getClock c = some .lt then gcList c rest
    else (k, v.garbageCollect) :: gcList c rest

end

end Shelf

/-- `SecureClock::verify`: recompute the hash of `(counter, value)` and
compare it with the stored hash.  `H` abstracts std's `DefaultHasher`.
A non-`secure` clock cannot occur on a leaf of a Rust `SecureClock` shelf. -/
def Clock.verify (H : Nat → Value → Nat) : Clock → Value → Bool
  | .secure n h, v => H n v == h
  | _, _ => false

namespace Shelf

mutual

/-- `Shelf::verify_contents`: a leaf must pass `clock.verify(value)`; a Map
passes iff all of its children do. -/
def verifyContents (H : Nat → Value → Nat) : Shelf → Bool
  | .value v c => c.verify H v
  | .map shelves _ => verifyList H shelves

def verifyList (H : Nat → Value → Nat) : List (String × Shelf) → Bool
  | [] => true
  | (_, v) :: rest => verifyContents H v && verifyList H rest

end

/-- The child loop of `Shelf::secure_merge` (lines 444-450): a key present on
both sides is merged with the *plain* `merge`; a key only on the remote side
is inserted only if its contents verify; keys only on the local side stay. -/
def secureMergeChildren (H : Nat → Value → Nat) :
    List (String × Shelf) → List (String × Shelf) → Option (List (String × Shelf))
  | [], bs => some (bs.filter (fun kv => kv.2.verifyContents H))
  | as1, [] => some as1
  | (ka, va) :: as1, (kb, vb) :: bs =>
    match lcmp ka kb with
    | .lt => (secureMergeChildren H as1 ((kb, vb) :: bs)).map (fun cs => (ka, va) :: cs)
    | .gt =>
      if vb.verifyContents H then
        (secureMergeChildren H ((ka, va) :: as1) bs).map (fun cs => (kb, vb) :: cs)
      else secureMergeChildren H ((ka, va) :: as1) bs
    | .eq => do
      let m ← merge va vb
      let rest ← secureMergeChildren H as1 bs
      pure ((ka, m) :: rest)

/-- `Shelf::secure_merge` (`wrap_crdt.rs` lines 421-473): like `merge`, but a
greater remote shelf is integrated only if its contents verify, and a merged
Map keeps `this_clock`. -/
def secureMerge (H : Nat → Value → Nat) (a b : Shelf) : Option Shelf :=
  match a, b, Clock.cmp a.getClock b.getClock with
  | this, other, some .lt => some (if other.verifyContents H then other else this)
  | this, _, some .gt => some this
  | .map as1 c1, .map bs _, _ =>
    (secureMergeChildren H as1 bs).map (fun cs => .map cs c1)
  | this, _, some .eq => some this
  | this, other, none =>
    match cmpS this other with
    | some .gt | some .eq => some this
    | some .lt => some (if other.verifyContents H then other else this)
    | none => none

end Shelf

/-- `state_vector.rs` `StateVector`: the shape of a Shelf with only clocks. -/
inductive StateVector where
  | node (children : List (String × StateVector)) (clock : Clock)
  | leaf (clock : Clock)

/-- `StateVector::get_clock`. -/
def StateVector.getClock : StateVector → Clock
  | .node _ c => c
  | .leaf c => c

namespace Shelf

mutual

/-- `Shelf::get_state_vector`: mirror the shelf's shape, keeping clocks. -/
def stateVector : Shelf → StateVector
  | .value _ c => .leaf c
  | .map shelves c => .node (stateVectorList shelves) c

def stateVectorList : List (String × Shelf) → List (String × StateVector)
  | [] => []
  | (k, v) :: rest => (k, v.stateVector) :: stateVectorList rest

end

mutual

/-- `Shelf::get_state_delta` (`state_vector.rs` lines 99-131).  The branch
order follows the source's `match (self, state_vector, clock_ordering)`. -/
def stateDelta : Shelf → StateVector → Option Shelf
  | s, sv =>
    match s, sv, Clock.cmp s.getClock sv.getClock with
    | _, _, some .lt => none
    | s, _, some .gt => some s
    | .map shelves mapClock, .node svChildren svClock, _ =>
      let collected := deltaChildren shelves svChildren svClock
      if collected.isEmpty then none else some (.map collected mapClock)
    | _, _, some .eq => none
    | .value _ _, .node _ _, none => none
    | s, _, none => some s

/-- The `filter_map` over the local children in the Map/Node branch: recurse
when the peer knows the key; otherwise drop the child if it is older than the
peer's map clock, else clone it. -/
def deltaChildren :
    List (String × Shelf) → List (String × StateVector) → Clock →
      List (String × Shelf)
  | [], _, _ => []
  | (k, v) :: rest, svChildren, svClock =>
    let d : Option Shelf :=
      match svChildren.lookup k with
      | some svChild => stateDelta v svChild
      | none =>
        if Clock.cmp v.getClock svClock = some .lt then none else some v
    match d with
    | some dv => (k, dv) :: deltaChildren rest svChildren svClock
    | none => deltaChildren rest svChildren svClock

end


end Shelf

/-- `LamportTimestampGenerator` (`clock.rs` lines 73-85). -/
structure LamportTimestampGenerator where

/-- `LamportTimestampGenerator::next_clock`: increments the counter. -/
def LamportTimestampGenerator.nextClock (_ : LamportTimestampGenerator)
    (clock : Clock) : Clock :=
  match clock with
  | .lamport n => .lamport (n + 1)
  | c => c

/-- `DotClockGenerator` (`clock.rs` lines 203-229). -/
structure DotClockGenerator where
  clientId : Nat

/-- `DotClockGenerator::next_clock` (`clock.rs` lines 222-228): destructures
the previous clock's counter and rebuilds a `DotClock` with the generator's
client id and the *same* counter.  The non-`dot` arm is unreachable in the
source's typing. -/
def DotClockGenerator.nextClock (g : DotClockGenerator) (clock : Clock) : Clock :=
  match clock with
  | .dot _ counter => .dot g.clientId counter
  | c => c

namespace Shelf

/-- Insertion into the sorted association list: the model of
`HashMap::insert` / `Entry::insert` (replaces an existing binding, otherwise
inserts keeping the key order). -/
def insertSorted : List (String × Shelf) → String → Shelf → List (String × Shelf)
  | [], key, nv => [(key, nv)]
  | (k, v) :: rest, key, nv =>
    match lcmp key k with
    | .lt => (key, nv) :: (k, v) :: rest
    | .eq => (key, nv) :: rest
    | .gt => (k, v) :: insertSorted rest key nv

/-- The `highest_child_timestamp` computation of `Awareness::set_state`:
`shelves.iter().map(|(_, s)| s.get_clock().get_logical_clock()).max()`. -/
def maxChildLogical : List (String × Shelf) → Option Nat
  | [] => none
  | (_, v) :: rest =>
    match maxChildLogical rest with
    | none => some v.getClock.logical
    | some m => some (max v.getClock.logical m)

end Shelf

namespace Awareness

/-- The final step of `Awareness::set_state` once `entry_from_path` has
reached the parent map: compute the new timestamp from the parent clock and
the occupying entry, restamp the written value with it, and insert.  Returns
the updated parent shelf and the replaced entry.  In `Awareness` all clocks
are `LamportTimestamp`, so the new clock is a `lamport`. -/
def setEntry (shelf : Shelf) (key : String) (value : Shelf) :
    Except String (Shelf × Option Shelf) :=
  match shelf with
  | .value _ _ => .error "Cannot set the key on a Shelf Value"
  | .map shelves clock =>
    let parentClock := clock.logical
    let newTs : Option Nat :=
      match shelves.lookup key with
      | some (.value _ c) => some (max c.logical parentClock + 1)
      | some (.map children oldClock) =>
        (Shelf.maxChildLogical children).map
          (fun ts => max (max ts parentClock) oldClock.logical + 1)
      | none => none
    let ts := newTs.getD (parentClock + 1)
    let newValue : Shelf :=
      match value with
      | .value v _ => .value v (.lamport ts)
      | .map children _ => .map children (.lamport ts)
    .ok (.map (Shelf.insertSorted shelves key newValue) clock,
      shelves.lookup key)

/-- The descent loop of `entry_from_path` combined with the entry write:
`prevKey` is the key under which the write will happen once `path` is
exhausted; descending fails when an intermediate key is missing or a Value is
hit. -/
def setPath (shelf : Shelf) (prevKey : String) (path : List String)
    (value : Shelf) : Except String (Shelf × Option Shelf) :=
  match path with
  | [] => setEntry shelf prevKey value
  | k :: rest =>
    match shelf with
    | .map shelves clock =>
      match shelves.lookup prevKey with
      | some child => do
        let (newChild, old) ← setPath child k rest value
        .ok (.map (Shelf.insertSorted shelves prevKey newChild) clock, old)
      | none => .error "Shelf Map does not exist at key"
    | .value _ _ => .error "Shelf Map does not exist at key"

/-- `Awareness::set_state` (`wrap_crdt.rs` lines 558-608): the path is
prefixed with the client id; returns the updated `clients` root and the
replaced entry. -/
def setState (clientId : Nat) (clients : Shelf) (path : List String)
    (value : Shelf) : Except String (Shelf × Option Shelf) :=
  setPath clients (toString clientId) path value

/-- `Awareness::merge` (`wrap_crdt.rs` lines 629-637): delegates to
`Shelf::merge` on the `clients` root (the swap dance of the source is just
ownership plumbing). -/
def mergeA (clients delta : Shelf) : Option Shelf :=
  Shelf.merge clients delta

end Awareness

namespace Shelf

/-- Whether a shelf is a Map (`Shelf::contains_shelves`). -/
def isMap : Shelf → Bool
  | .map _ _ => true
  | .value _ _ => false

/-- The top-level value of a leaf shelf. -/
def topValue : Shelf → Option Value
  | .value v _ => some v
  | .map _ _ => none

/-- Keys of an association list strictly ascending (canonical `HashMap`
representation). -/
def sortedKeys : List (String × Shelf) → Bool
  | [] => true
  | [_] => true
  | (k1, _) :: (k2, v2) :: rest =>
    decide (k1 < k2) && sortedKeys ((k2, v2) :: rest)

mutual

/-- Every map node of the shelf has strictly ascending keys. -/
def wfKeys : Shelf → Bool
  | .value _ _ => true
  | .map shelves _ => sortedKeys shelves && wfKeysList shelves

def wfKeysList : List (String × Shelf) → Bool
  | [] => true
  | (_, v) :: rest => wfKeys v && wfKeysList rest

end

/-- Whether a clock is a `LamportTimestamp`. -/
def clockIsLamport : Clock → Bool
  | .lamport _ => true
  | _ => false

mutual

/-- Every map clock in the shelf is a `LamportTimestamp`.  This holds for
every instantiation of `Shelf` in the repository
(`Shelf<Value, LamportTimestamp, DotClock>`, the `Awareness` shelves and the
secure shelves all use `MapClock = LamportTimestamp`). -/
def lamportMaps : Shelf → Bool
  | .value _ _ => true
  | .map shelves c => clockIsLamport c && lamportMapsList shelves

def lamportMapsList : List (String × Shelf) → Bool
  | [] => true
  | (_, v) :: rest => lamportMaps v && lamportMapsList rest

end

mutual

/-- Invariant 2 of spec §3.3, recursively: no map child carries a clock
strictly less than the map's clock (such children would have been pruned). -/
def prunedShelf : Shelf → Bool
  | .value _ _ => true
  | .map shelves c => prunedList c shelves

def prunedList (c : Clock) : List (String × Shelf) → Bool
  | [] => true
  | (_, v) :: rest =>
    decide (Clock.cmp v.getClock c ≠ some .lt) && prunedShelf v && prunedList c rest

end

mutual

/-- Freedom from ties that `merge` resolves asymmetrically, at every pair of
positions the recursive merge can compare: two leaves with equal clocks must
be identical; two leaves with incomparable clocks must not carry equal
values; two maps must have comparable clocks; a map and a leaf must not have
equal clocks. -/
def compat : Shelf → Shelf → Bool
  | .value v1 c1, .value v2 c2 =>
    (decide (Clock.cmp c1 c2 ≠ some .eq) || decide (v1 = v2)) &&
      (decide (Clock.cmp c1 c2 ≠ none) || decide (Value.cmp v1 v2 ≠ some .eq))
  | .map s1 c1, .map s2 c2 =>
    decide (Clock.cmp c1 c2 ≠ none) &&
      (decide (Clock.cmp c1 c2 ≠ some .eq) || compatChildren s1 s2)
  | .map _ c1, .value _ c2 => decide (Clock.cmp c1 c2 ≠ some .eq)
  | .value _ c1, .map _ c2 => decide (Clock.cmp c1 c2 ≠ some .eq)

/-- `compat` on all pairs of children sharing a key (key-wise zip of the
sorted lists). -/
def compatChildren : List (String × Shelf) → List (String × Shelf) → Bool
  | [], _ => true
  | _, [] => true
  | (ka, va) :: as1, (kb, vb) :: bs =>
    match lcmp ka kb with
    | .lt => compatChildren as1 ((kb, vb) :: bs)
    | .gt => compatChildren ((ka, va) :: as1) bs
    | .eq => compat va vb && compatChildren as1 bs

end


/-! Shape lemmas for `merge`, one per source branch. -/

theorem merge_lt {a b : Shelf} (h : Clock.cmp a.getClock b.getClock = some .lt) :
    merge a b = some b := by
  cases a <;> cases b <;> rw [Shelf.merge.eq_def] <;> simp [h]

theorem merge_gt {a b : Shelf} (h : Clock.cmp a.getClock b.getClock = some .gt) :
    merge a b = some a := by
  cases a <;> cases b <;> rw [Shelf.merge.eq_def] <;> simp [h]

theorem merge_mm {s1 s2 : List (String × Shelf)} {c1 c2 : Clock}
    (h : Clock.cmp c1 c2 = some .eq ∨ Clock.cmp c1 c2 = none) :
    merge (.map s1 c1) (.map s2 c2) =
      (mergeChildren s1 s2).map (fun cs =>
        .map cs (if Clock.cmp c1 c2 = some .gt then c1 else c2)) := by
  rw [Shelf.merge.eq_def]
  rcases h with h | h <;> simp [getClock, h]

theorem merge_eq_self {a b : Shelf} (h : Clock.cmp a.getClock b.getClock = some .eq)
    (hnm : a.isMap = false ∨ b.isMap = false) : merge a b = some a := by
  cases a <;> cases b <;> simp [isMap] at hnm <;> rw [Shelf.merge.eq_def] <;> simp [h]

theorem merge_none {a b : Shelf} (h : Clock.cmp a.getClock b.getClock = none)
    (hnm : a.isMap = false ∨ b.isMap = false) :
    merge a b =
      match cmpS a b with
      | some .gt | some .eq => some a
      | some .lt => some b
      | none => none := by
  cases a <;> cases b <;> simp [isMap] at hnm <;> rw [Shelf.merge.eq_def] <;> simp [h]


/-! Shape lemmas for `mergeChildren`, `compat` and `compatChildren`. -/

theorem mergeChildren_nil_left (bs : List (String × Shelf)) :
    mergeChildren [] bs = some bs := by
  cases bs <;> rw [Shelf.mergeChildren.eq_def]

theorem mergeChildren_nil_right (as1 : List (String × Shelf)) :
    mergeChildren as1 [] = some as1 := by
  cases as1 <;> rw [Shelf.mergeChildren.eq_def]

theorem mergeChildren_cons (ka : String) (va : Shelf) (as1 : List (String × Shelf))
    (kb : String) (vb : Shelf) (bs : List (String × Shelf)) :
    mergeChildren ((ka, va) :: as1) ((kb, vb) :: bs) =
      (match lcmp ka kb with
      | .lt => (mergeChildren as1 ((kb, vb) :: bs)).map (fun cs => (ka, va) :: cs)
      | .gt => (mergeChildren ((ka, va) :: as1) bs).map (fun cs => (kb, vb) :: cs)
      | .eq => do
        let m ← merge va vb
        let rest ← mergeChildren as1 bs
        pure ((ka, m) :: rest)) := by
  rw [Shelf.mergeChildren.eq_def]

theorem compat_vv {v1 v2 : Value} {c1 c2 : Clock} :
    compat (.value v1 c1) (.value v2 c2) = true ↔
      ((Clock.cmp c1 c2 = some .eq → v1 = v2) ∧
        (Clock.cmp c1 c2 = none → ¬Value.cmp v1 v2 = some .eq)) := by
  rw [Shelf.compat.eq_def]
  cases hc : Clock.cmp c1 c2 with
  | none => simp [hc]
  | some o => cases o <;> simp [hc]

theorem compat_mm {s1 s2 : List (String × Shelf)} {c1 c2 : Clock} :
    compat (.map s1 c1) (.map s2 c2) = true ↔
      (¬Clock.cmp c1 c2 = none ∧
        (Clock.cmp c1 c2 = some .eq → compatChildren s1 s2 = true)) := by
  rw [Shelf.compat.eq_def]
  cases hc : Clock.cmp c1 c2 with
  | none => simp [hc]
  | some o => cases o <;> simp [hc]

theorem compat_mv {s1 : List (String × Shelf)} {v2 : Value} {c1 c2 : Clock} :
    compat (.map s1 c1) (.value v2 c2) = true ↔ ¬Clock.cmp c1 c2 = some .eq := by
  rw [Shelf.compat.eq_def]
  cases hc : Clock.cmp c1 c2 with
  | none => simp [hc]
  | some o => cases o <;> simp [hc]

theorem compat_vm {v1 : Value} {s2 : List (String × Shelf)} {c1 c2 : Clock} :
    compat (.value v1 c1) (.map s2 c2) = true ↔ ¬Clock.cmp c1 c2 = some .eq := by
  rw [Shelf.compat.eq_def]
  cases hc : Clock.cmp c1 c2 with
  | none => simp [hc]
  | some o => cases o <;> simp [hc]

theorem compatChildren_cons (ka : String) (va : Shelf) (as1 : List (String × Shelf))
    (kb : String) (vb : Shelf) (bs : List (String × Shelf)) :
    compatChildren ((ka, va) :: as1) ((kb, vb) :: bs) =
      (match lcmp ka kb with
      | .lt => compatChildren as1 ((kb, vb) :: bs)
      | .gt => compatChildren ((ka, va) :: as1) bs
      | .eq => compat va vb && compatChildren as1 bs) := by
  rw [Shelf.compatChildren.eq_def]

/-- Commutativity is immediate when the clocks are strictly ordered. -/
theorem merge_comm_of_lt {a b : Shelf}
    (h : Clock.cmp a.getClock b.getClock = some .lt) : merge a b = merge b a := by
  rw [merge_lt h, merge_gt (by rw [Clock.cmp_swap, h]; rfl)]

theorem merge_comm_of_gt {a b : Shelf}
    (h : Clock.cmp a.getClock b.getClock = some .gt) : merge a b = merge b a := by
  rw [merge_gt h, merge_lt (by rw [Clock.cmp_swap, h]; rfl)]

/-- Master commutativity lemma, by strong induction on the combined size:
`merge` commutes on compatible shelves, and the child zip commutes on
compatible child lists. -/
theorem mergeCommAux :
    ∀ n : Nat,
      (∀ a b : Shelf, sizeOf a + sizeOf b ≤ n → compat a b = true →
        merge a b = merge b a) ∧
      (∀ as1 bs : List (String × Shelf), sizeOf as1 + sizeOf bs ≤ n →
        compatChildren as1 bs = true →
        mergeChildren as1 bs = mergeChildren bs as1) := by
  intro n
  induction n using Nat.strong_induction_on with
  | _ n ih =>
  constructor
  · intro a b hsize hc
    cases a with
    | value v1 c1 =>
      cases b with
      | value v2 c2 =>
        rw [compat_vv] at hc
        cases hcc : Clock.cmp c1 c2 with
        | some o =>
          cases o with
          | lt => exact merge_comm_of_lt hcc
          | gt => exact merge_comm_of_gt hcc
          | eq =>
            obtain rfl : v1 = v2 := hc.1 hcc
            obtain rfl : c1 = c2 := Clock.cmp_eq_iff c1 c2 |>.mp hcc
            rfl
        | none =>
          have hcc' : Clock.cmp c2 c1 = none := by rw [Clock.cmp_swap, hcc]; rfl
          rw [merge_none (a := .value v1 c1) (b := .value v2 c2) hcc (.inl rfl),
            merge_none (a := .value v2 c2) (b := .value v1 c1) hcc' (.inl rfl)]
          have hval : cmpS (Shelf.value v1 c1) (Shelf.value v2 c2) = Value.cmp v1 v2 := by
            simp [cmpS, hcc]
          have hval' : cmpS (Shelf.value v2 c2) (Shelf.value v1 c1) = Value.cmp v2 v1 := by
            simp [cmpS, hcc']
          rw [hval, hval', Value.vcmp_swap v1 v2]
          cases hv : Value.cmp v1 v2 with
          | none => rfl
          | some o =>
            cases o with
            | lt => rfl
            | gt => rfl
            | eq => exact absurd hv (hc.2 hcc)
      | map s2 c2 =>
        rw [compat_vm] at hc
        cases hcc : Clock.cmp c1 c2 with
        | some o =>
          cases o with
          | lt => exact merge_comm_of_lt hcc
          | gt => exact merge_comm_of_gt hcc
          | eq => exact absurd hcc hc
        | none =>
          have hcc' : Clock.cmp c2 c1 = none := by rw [Clock.cmp_swap, hcc]; rfl
          rw [merge_none (a := .value v1 c1) (b := .map s2 c2) hcc (.inl rfl),
            merge_none (a := .map s2 c2) (b := .value v1 c1) hcc' (.inr rfl)]
          have h1 : cmpS (Shelf.value v1 c1) (Shelf.map s2 c2) = some .lt := by
            simp [cmpS, hcc]
          have h2 : cmpS (Shelf.map s2 c2) (Shelf.value v1 c1) = some .gt := by
            simp [cmpS, hcc']
          rw [h1, h2]
    | map s1 c1 =>
      cases b with
      | value v2 c2 =>
        rw [compat_mv] at hc
        cases hcc : Clock.cmp c1 c2 with
        | some o =>
          cases o with
          | lt => exact merge_comm_of_lt hcc
          | gt => exact merge_comm_of_gt hcc
          | eq => exact absurd hcc hc
        | none =>
          have hcc' : Clock.cmp c2 c1 = none := by rw [Clock.cmp_swap, hcc]; rfl
          rw [merge_none (a := .map s1 c1) (b := .value v2 c2) hcc (.inr rfl),
            merge_none (a := .value v2 c2) (b := .map s1 c1) hcc' (.inl rfl)]
          have h1 : cmpS (Shelf.map s1 c1) (Shelf.value v2 c2) = some .gt := by
            simp [cmpS, hcc]
          have h2 : cmpS (Shelf.value v2 c2) (Shelf.map s1 c1) = some .lt := by
            simp [cmpS, hcc']
          rw [h1, h2]
      | map s2 c2 =>
        rw [compat_mm] at hc
        cases hcc : Clock.cmp c1 c2 with
        | some o =>
          cases o with
          | lt => exact merge_comm_of_lt hcc
          | gt => exact merge_comm_of_gt hcc
          | eq =>
            obtain rfl : c1 = c2 := Clock.cmp_eq_iff c1 c2 |>.mp hcc
            have hmc : mergeChildren s1 s2 = mergeChildren s2 s1 := by
              have hlt : sizeOf s1 + sizeOf s2 < n := by
                have h1 : sizeOf (Shelf.map s1 c1) + sizeOf (Shelf.map s2 c1) ≤ n := hsize
                simp only [Shelf.map.sizeOf_spec] at h1
                omega
              exact (ih _ hlt).2 s1 s2 le_rfl (hc.2 hcc)
            rw [merge_mm (.inl hcc), merge_mm (.inl (Clock.cmp_self c1)), hmc]
        | none => exact absurd hcc hc.1
  · intro as1 bs hsize hcomp
    cases as1 with
    | nil => rw [mergeChildren_nil_left, mergeChildren_nil_right]
    | cons ha as1 =>
      cases bs with
      | nil => rw [mergeChildren_nil_left, mergeChildren_nil_right]
      | cons hb bs =>
        obtain ⟨ka, va⟩ := ha
        obtain ⟨kb, vb⟩ := hb
        rw [compatChildren_cons] at hcomp
        rw [mergeChildren_cons, mergeChildren_cons]
        cases hk : lcmp ka kb with
        | lt =>
          rw [hk] at hcomp
          have hk' : lcmp kb ka = .gt := by rw [lcmp_swap, hk]; rfl
          rw [hk']
          have hlt : sizeOf as1 + sizeOf ((kb, vb) :: bs) < n := by
            have h1 : sizeOf ((ka, va) :: as1) + sizeOf ((kb, vb) :: bs) ≤ n := hsize
            simp only [List.cons.sizeOf_spec] at h1 ⊢
            omega
          rw [(ih _ hlt).2 as1 ((kb, vb) :: bs) le_rfl hcomp]
        | gt =>
          rw [hk] at hcomp
          have hk' : lcmp kb ka = .lt := by rw [lcmp_swap, hk]; rfl
          rw [hk']
          have hlt : sizeOf ((ka, va) :: as1) + sizeOf bs < n := by
            have h1 : sizeOf ((ka, va) :: as1) + sizeOf ((kb, vb) :: bs) ≤ n := hsize
            simp only [List.cons.sizeOf_spec] at h1 ⊢
            omega
          rw [(ih _ hlt).2 ((ka, va) :: as1) bs le_rfl hcomp]
        | eq =>
          rw [hk] at hcomp
          obtain rfl : ka = kb := lcmp_eq_iff ka kb |>.mp hk
          rw [lcmp_self]
          simp only [Bool.and_eq_true] at hcomp
          have hsz : sizeOf va + sizeOf vb < n ∧ sizeOf as1 + sizeOf bs < n := by
            have h1 : sizeOf ((ka, va) :: as1) + sizeOf ((ka, vb) :: bs) ≤ n := hsize
            simp only [List.cons.sizeOf_spec, Prod.mk.sizeOf_spec] at h1
            omega
          rw [(ih _ hsz.1).1 va vb le_rfl hcomp.1,
            (ih _ hsz.2).2 as1 bs le_rfl hcomp.2]


/-- C1 counterexample: two leaves with equal Lamport clocks but different
values.  `merge` keeps `self` on `Equal` clocks, so the two orders return
different shelves. -/
theorem merge_not_commutative :
    merge (.value (.int 1) (.lamport 0)) (.value (.int 2) (.lamport 0)) ≠
      merge (.value (.int 2) (.lamport 0)) (.value (.int 1) (.lamport 0)) := by
  have h1 : merge (.value (.int 1) (.lamport 0)) (.value (.int 2) (.lamport 0)) =
      some (.value (.int 1) (.lamport 0)) := by
    simp [Shelf.merge, getClock, Clock.cmp, lcmp, Clock.tieBreak]
  have h2 : merge (.value (.int 2) (.lamport 0)) (.value (.int 1) (.lamport 0)) =
      some (.value (.int 2) (.lamport 0)) := by
    simp [Shelf.merge, getClock, Clock.cmp, lcmp, Clock.tieBreak]
  rw [h1, h2]
  simp

/-- C1 (amended): `merge` is commutative on every pair of shelves free of
ties that the code resolves asymmetrically (`compat`): wherever the recursion
can compare two leaves, equal clocks imply identical leaves and incomparable
clocks imply distinct values; two compared maps never have incomparable
clocks; a compared map/leaf pair never has equal clocks. -/
theorem merge_comm_of_compat (a b : Shelf) (h : compat a b = true) :
    merge a b = merge b a :=
  (mergeCommAux (sizeOf a + sizeOf b)).1 a b le_rfl h

/-- Witness for `merge_comm_of_compat` on two concrete overlapping maps. -/
theorem merge_comm_of_compat_witness :
    compat
        (.map [("x", .value (.int 1) (.dot 0 1)), ("y", .value (.int 2) (.dot 0 2))]
          (.lamport 0))
        (.map [("x", .value (.int 5) (.dot 1 3)), ("z", .value (.int 9) (.dot 1 1))]
          (.lamport 0)) = true ∧
      merge
          (.map [("x", .value (.int 1) (.dot 0 1)), ("y", .value (.int 2) (.dot 0 2))]
            (.lamport 0))
          (.map [("x", .value (.int 5) (.dot 1 3)), ("z", .value (.int 9) (.dot 1 1))]
            (.lamport 0)) =
        merge
          (.map [("x", .value (.int 5) (.dot 1 3)), ("z", .value (.int 9) (.dot 1 1))]
            (.lamport 0))
          (.map [("x", .value (.int 1) (.dot 0 1)), ("y", .value (.int 2) (.dot 0 2))]
            (.lamport 0)) := by
  have hcompat : compat
      (.map [("x", .value (.int 1) (.dot 0 1)), ("y", .value (.int 2) (.dot 0 2))]
        (.lamport 0))
      (.map [("x", .value (.int 5) (.dot 1 3)), ("z", .value (.int 9) (.dot 1 1))]
        (.lamport 0)) = true := by
    simp [Shelf.compat, Shelf.compatChildren, Clock.cmp, lcmp, Clock.tieBreak, Value.cmp]
    split <;> rfl
  exact ⟨hcompat, merge_comm_of_compat _ _ hcompat⟩


/-- C4: the `panic!` branch of `merge` is reachable: two NaN leaves under
incomparable Dot clocks make both the clock comparison and the content
comparison return `None`, so `merge` panics (modelled as `none`). -/
theorem merge_nan_panics :
    merge (.value (.float .nan) (.dot 0 1)) (.value (.float .nan) (.dot 1 1)) = none := by
  simp [Shelf.merge, Shelf.cmpS, getClock, Clock.cmp, lcmp, Clock.tieBreak,
    Value.cmp, F32.cmp]

/-- C6 counterexample: merging a Value delta with a higher clock into a Map
root replaces the root by the Value, so the map-root invariant is lost. -/
theorem awareness_merge_value_root_counterexample :
    Awareness.mergeA (.map [] (.lamport 0)) (.value .null (.lamport 1)) =
        some (.value .null (.lamport 1)) ∧
      (Shelf.value .null (.lamport 1)).isMap = false := by
  constructor
  · simp [Awareness.mergeA, Shelf.merge, getClock, Clock.cmp, lcmp]
  · rfl

/-- C6 (amended): `Awareness::merge` keeps a Map root whenever the delta is a
Map, or the delta is a Value whose clock does not strictly exceed the root's
map clock. -/
theorem awareness_merge_preserves_map_root (clients delta r : Shelf)
    (hroot : clients.isMap = true)
    (hdelta : delta.isMap = true ∨
      ¬Clock.cmp clients.getClock delta.getClock = some .lt)
    (hr : Awareness.mergeA clients delta = some r) : r.isMap = true := by
  unfold Awareness.mergeA at hr
  cases clients with
  | value v c => simp [isMap] at hroot
  | map s1 c1 =>
    cases delta with
    | map s2 c2 =>
      cases hcc : Clock.cmp c1 c2 with
      | some o =>
        cases o with
        | lt =>
          rw [merge_lt (a := .map s1 c1) (b := .map s2 c2) hcc] at hr
          cases hr; rfl
        | gt =>
          rw [merge_gt (a := .map s1 c1) (b := .map s2 c2) hcc] at hr
          cases hr; rfl
        | eq =>
          rw [merge_mm (.inl hcc)] at hr
          cases hm : mergeChildren s1 s2 with
          | none => rw [hm] at hr; cases hr
          | some cs => rw [hm] at hr; cases hr; rfl
      | none =>
        rw [merge_mm (.inr hcc)] at hr
        cases hm : mergeChildren s1 s2 with
        | none => rw [hm] at hr; cases hr
        | some cs => rw [hm] at hr; cases hr; rfl
    | value v2 c2 =>
      have hnl : ¬Clock.cmp c1 c2 = some .lt := by
        rcases hdelta with h | h
        · simp [isMap] at h
        · exact h
      cases hcc : Clock.cmp c1 c2 with
      | some o =>
        cases o with
        | lt => exact absurd hcc hnl
        | gt =>
          rw [merge_gt (a := .map s1 c1) (b := .value v2 c2) hcc] at hr
          cases hr; rfl
        | eq =>
          rw [merge_eq_self (a := .map s1 c1) (b := .value v2 c2) hcc (.inr rfl)] at hr
          cases hr; rfl
      | none =>
        rw [merge_none (a := .map s1 c1) (b := .value v2 c2) hcc (.inr rfl)] at hr
        have hgt : cmpS (Shelf.map s1 c1) (Shelf.value v2 c2) = some .gt := by
          simp [cmpS, hcc]
        rw [hgt] at hr
        cases hr; rfl

/-- Witness for `awareness_merge_preserves_map_root`: merging a Map delta
with a greater clock into a Map root. -/
theorem awareness_merge_preserves_map_root_witness :
    (Shelf.map [] (.lamport 0)).isMap = true ∧
      Awareness.mergeA (.map [] (.lamport 0)) (.map [] (.lamport 5)) =
        some (.map [] (.lamport 5)) ∧
      (Shelf.map [] (.lamport 5)).isMap = true := by
  have hm : Awareness.mergeA (.map [] (.lamport 0)) (.map [] (.lamport 5)) =
      some (.map [] (.lamport 5)) := by
    simp [Awareness.mergeA, Shelf.merge, getClock, Clock.cmp, lcmp]
  exact ⟨rfl, hm,
    awareness_merge_preserves_map_root (.map [] (.lamport 0)) (.map [] (.lamport 5))
      (.map [] (.lamport 5)) rfl (Or.inl rfl) hm⟩

end Shelf

/-- C7: `DotClockGenerator::next_clock` does not advance the counter: on a
previous clock with the generator's own client id it returns the very same
clock, which compares `Equal`, not `Greater`. -/
theorem dot_generator_next_not_greater :
    DotClockGenerator.nextClock ⟨0⟩ (.dot 0 5) = .dot 0 5 ∧
      Clock.cmp (DotClockGenerator.nextClock ⟨0⟩ (.dot 0 5)) (.dot 0 5) = some .eq ∧
      ¬Clock.cmp (DotClockGenerator.nextClock ⟨0⟩ (.dot 0 5)) (.dot 0 5) = some .gt := by
  refine ⟨rfl, by decide, by decide⟩

namespace Shelf

/-- C8 counterexample: a local empty Map against a state-vector Node with a
strictly incomparable map clock: the code returns `None`, although the spec
requires an empty Map shell to reconcile the clocks. -/
theorem delta_empty_incomparable_counterexample :
    Clock.cmp (.dot 0 5) (.dot 1 5) = none ∧
      stateDelta (.map [] (.dot 0 5)) (.node [] (.dot 1 5)) = none := by
  decide

/-- C8 (amended): when the map clocks compare `Equal` or are incomparable,
`get_state_delta` returns `Some(Map{children, clock=self.clock})` iff the
collected child deltas are non-empty, and `None` otherwise — also in the
incomparable case. -/
theorem delta_map_node_shape (shelves : List (String × Shelf))
    (svc : List (String × StateVector)) (mc svClock : Clock)
    (h : Clock.cmp mc svClock = some .eq ∨ Clock.cmp mc svClock = none) :
    stateDelta (.map shelves mc) (.node svc svClock) =
      (if (deltaChildren shelves svc svClock).isEmpty then none
        else some (.map (deltaChildren shelves svc svClock) mc)) := by
  rw [Shelf.stateDelta.eq_def]
  rcases h with h | h <;> simp [getClock, StateVector.getClock, h]

/-- Witness for `delta_map_node_shape`: equal map clocks, one fresh child. -/
theorem delta_map_node_shape_witness :
    (Clock.cmp (.lamport 0) (.lamport 0) = some .eq ∨
        Clock.cmp (.lamport 0) (.lamport 0) = none) ∧
      stateDelta (.map [("a", .value (.int 1) (.dot 0 9))] (.lamport 0))
          (.node [] (.lamport 0)) =
        (if (deltaChildren [("a", .value (.int 1) (.dot 0 9))] [] (.lamport 0)).isEmpty
          then none
          else some (.map (deltaChildren [("a", .value (.int 1) (.dot 0 9))] []
            (.lamport 0)) (.lamport 0))) :=
  ⟨Or.inl (by decide),
    delta_map_node_shape [("a", .value (.int 1) (.dot 0 9))] [] (.lamport 0)
      (.lamport 0) (Or.inl (by decide))⟩


/-! Lookup lemmas over the sorted association lists. -/

theorem sortedKeys_pairwise :
    ∀ l : List (String × Shelf), sortedKeys l = true →
      l.Pairwise (fun a b => a.1 < b.1)
  | [], _ => List.Pairwise.nil
  | [x], _ => by simp
  | (k1, v1) :: (k2, v2) :: rest, h => by
    have h' : k1 < k2 ∧ sortedKeys ((k2, v2) :: rest) = true := by
      simpa [sortedKeys, Bool.and_eq_true] using h
    have ih := sortedKeys_pairwise ((k2, v2) :: rest) h'.2
    refine List.Pairwise.cons ?_ ih
    intro b hb
    rcases List.mem_cons.mp hb with rfl | hb
    · exact h'.1
    · exact lt_trans h'.1 (List.rel_of_pairwise_cons ih hb)

theorem sortedKeys_tail {x : String × Shelf} {l : List (String × Shelf)}
    (h : sortedKeys (x :: l) = true) : sortedKeys l = true := by
  cases l with
  | nil => rfl
  | cons y rest =>
    obtain ⟨kx, vx⟩ := x
    obtain ⟨ky, vy⟩ := y
    exact (by simpa [sortedKeys, Bool.and_eq_true] using h :
      kx < ky ∧ sortedKeys ((ky, vy) :: rest) = true).2

theorem lookup_eq_none_of_keys_lt {k : String} :
    ∀ {l : List (String × Shelf)}, (∀ p ∈ l, ¬p.1 = k) → l.lookup k = none
  | [], _ => rfl
  | (k1, v1) :: rest, h => by
    have hk : ¬(k == k1) = true := by
      simp only [beq_iff_eq]
      intro hkk
      exact h (k1, v1) (List.mem_cons_self _ _) hkk.symm
    simp only [List.lookup, Bool.not_eq_true] at hk ⊢
    rw [hk]
    exact lookup_eq_none_of_keys_lt (fun p hp => h p (List.mem_cons_of_mem _ hp))

/-- Lookup in a filtered association list with distinct keys. -/
theorem lookup_filter {p : String × Shelf → Bool} :
    ∀ {l : List (String × Shelf)}, l.Pairwise (fun a b => a.1 < b.1) →
      ∀ {k : String} {v : Shelf},
        ((l.filter p).lookup k = some v ↔ (l.lookup k = some v ∧ p (k, v) = true))
  | [], _, k, v => by simp
  | (k1, v1) :: rest, hnd, k, v => by
    have htail := List.Pairwise.sublist (List.sublist_cons_self _ _) hnd
    rcases hp : p (k1, v1) with _ | _
    · rcases hkk : k == k1 with _ | _
      · rw [List.filter_cons_of_neg (by simp [hp])]
        rw [lookup_filter htail]
        simp only [List.lookup, hkk]
      · obtain rfl : k = k1 := by simpa [beq_iff_eq] using hkk
        rw [List.filter_cons_of_neg (by simp [hp])]
        constructor
        · intro hl
          have : ∀ q ∈ rest.filter p, ¬q.1 = k := by
            intro q hq
            have hq' := List.rel_of_pairwise_cons hnd (List.mem_of_mem_filter hq)
            exact fun he => absurd (he ▸ hq') (lt_irrefl k)
          rw [lookup_eq_none_of_keys_lt this] at hl
          cases hl
        · rintro ⟨hl, hpv⟩
          simp only [List.lookup, beq_self_eq_true] at hl
          cases hl
          rw [hp] at hpv
          cases hpv
    · rcases hkk : k == k1 with _ | _
      · rw [List.filter_cons_of_pos (by simp [hp])]
        simp only [List.lookup, hkk]
        exact lookup_filter htail
      · obtain rfl : k = k1 := by simpa [beq_iff_eq] using hkk
        rw [List.filter_cons_of_pos (by simp [hp])]
        simp only [List.lookup, beq_self_eq_true]
        constructor
        · rintro hv; cases hv; exact ⟨rfl, hp⟩
        · rintro ⟨hv, _⟩; cases hv; rfl

/-- Lookup commutes with a value-wise map of an association list. -/
theorem lookup_mapval {g : Shelf → Shelf} :
    ∀ (l : List (String × Shelf)) (k : String),
      (l.map (fun kv => (kv.1, g kv.2))).lookup k = (l.lookup k).map g
  | [], _ => rfl
  | (k1, v1) :: rest, k => by
    simp only [List.map, List.lookup]
    rcases hkk : k == k1 with _ | _
    · exact lookup_mapval rest k
    · rfl

/-- C9: `prune` on a `Map` with clock `m` retains exactly the children whose
clock is not strictly less than `m` under the `ShelfClock` order: a key is
still present (with the same sub-shelf) iff it was present and its clock is
`Greater`, `Equal` or incomparable to `m`. -/
theorem prune_retains_iff (shelves : List (String × Shelf)) (m : Clock)
    (hs : sortedKeys shelves = true) (k : String) (v : Shelf) :
    (Shelf.prune (.map shelves m)).get1 k = some v ↔
      ((Shelf.map shelves m).get1 k = some v ∧
        ¬Clock.cmp v.getClock m = some .lt) := by
  show ((shelves.filter _).lookup k = some v) ↔ _
  rw [lookup_filter (sortedKeys_pairwise shelves hs)]
  simp only [get1, decide_eq_true_eq]

/-- Witness for `prune_retains_iff`: a map with one incomparable-clock child. -/
theorem prune_retains_iff_witness :
    sortedKeys [("b", Shelf.value .null (.dot 1 2))] = true ∧
      ((Shelf.prune (.map [("b", .value .null (.dot 1 2))] (.dot 0 2))).get1 "b" =
          some (.value .null (.dot 1 2)) ↔
        ((Shelf.map [("b", .value .null (.dot 1 2))] (.dot 0 2)).get1 "b" =
            some (.value .null (.dot 1 2)) ∧
          ¬Clock.cmp (Shelf.value .null (.dot 1 2)).getClock (.dot 0 2) = some .lt)) :=
  ⟨rfl,
    prune_retains_iff [("b", .value .null (.dot 1 2))] (.dot 0 2) rfl "b"
      (.value .null (.dot 1 2))⟩

/-- `garbageCollect` on a map is `prune` followed by recursion: the retained
entries are the kept entries with `garbageCollect` applied. -/
theorem gcList_eq (c : Clock) :
    ∀ l : List (String × Shelf),
      gcList c l =
        (l.filter (fun kv => decide (¬Clock.cmp kv.2.getClock c = some .lt))).map
          (fun kv => (kv.1, garbageCollect kv.2))
  | [] => rfl
  | (k, v) :: rest => by
    rw [gcList]
    rcases hlt : Clock.cmp v.getClock c with _ | o
    · rw [if_neg (by simp [hlt]), List.filter_cons_of_pos (by simp [hlt])]
      simp only [List.map]
      rw [gcList_eq c rest]
    · cases o with
      | lt =>
        rw [if_pos rfl, List.filter_cons_of_neg (by simp [hlt])]
        exact gcList_eq c rest
      | eq =>
        rw [if_neg (by simp [hlt]), List.filter_cons_of_pos (by simp [hlt])]
        simp only [List.map]
        rw [gcList_eq c rest]
      | gt =>
        rw [if_neg (by simp [hlt]), List.filter_cons_of_pos (by simp [hlt])]
        simp only [List.map]
        rw [gcList_eq c rest]


/-- C10: `prune` and `garbage_collect` only remove map entries and never
alter what remains: both are the identity on a Value shelf; both keep the
node's own clock; `garbage_collect` keeps the top-level value; every key
retained by `prune` still maps to the identical sub-shelf; every key retained
by `garbage_collect` maps to the garbage-collection of the original
sub-shelf, which keeps its clock and top-level value. -/
theorem prune_gc_frame :
    (∀ (v : Value) (c : Clock), Shelf.prune (.value v c) = .value v c) ∧
      (∀ (v : Value) (c : Clock), garbageCollect (.value v c) = .value v c) ∧
      (∀ s : Shelf, (Shelf.prune s).getClock = s.getClock) ∧
      (∀ s : Shelf, (garbageCollect s).getClock = s.getClock) ∧
      (∀ s : Shelf, (garbageCollect s).topValue = s.topValue) ∧
      (∀ (shelves : List (String × Shelf)) (m : Clock), sortedKeys shelves = true →
        ∀ (k : String) (v : Shelf), (Shelf.prune (.map shelves m)).get1 k = some v →
          (Shelf.map shelves m).get1 k = some v) ∧
      (∀ (shelves : List (String × Shelf)) (m : Clock), sortedKeys shelves = true →
        ∀ (k : String) (v : Shelf),
          (garbageCollect (.map shelves m)).get1 k = some v →
          ∃ v0, (Shelf.map shelves m).get1 k = some v0 ∧ v = garbageCollect v0 ∧
            v.getClock = v0.getClock ∧ v.topValue = v0.topValue) := by
  have hgcv : ∀ (v : Value) (c : Clock), garbageCollect (.value v c) = .value v c := by
    intro v c; rw [garbageCollect]
  have hgcclock : ∀ s : Shelf, (garbageCollect s).getClock = s.getClock := by
    intro s
    cases s with
    | value v c => rw [hgcv]
    | map sh c => rw [garbageCollect]; rfl
  have hgctop : ∀ s : Shelf, (garbageCollect s).topValue = s.topValue := by
    intro s
    cases s with
    | value v c => rw [hgcv]
    | map sh c => rw [garbageCollect]; rfl
  refine ⟨fun v c => rfl, hgcv, ?_, hgcclock, hgctop, ?_, ?_⟩
  · intro s
    cases s <;> rfl
  · intro shelves m hs k v hv
    have h := (lookup_filter (p := fun kv =>
        decide (¬Clock.cmp kv.2.getClock m = some .lt))
      (sortedKeys_pairwise shelves hs) (k := k) (v := v)).mp hv
    exact h.1
  · intro shelves m hs k v hv
    have hv' : (gcList m shelves).lookup k = some v := hv
    rw [gcList_eq] at hv'
    rw [lookup_mapval] at hv'
    cases hl : (shelves.filter (fun kv =>
        decide (¬Clock.cmp kv.2.getClock m = some .lt))).lookup k with
    | none => rw [hl] at hv'; cases hv'
    | some v0 =>
      rw [hl] at hv'
      have hveq : v = garbageCollect v0 := by
        cases hv'; rfl
      have h0 := (lookup_filter (p := fun kv =>
          decide (¬Clock.cmp kv.2.getClock m = some .lt))
        (sortedKeys_pairwise shelves hs) (k := k) (v := v0)).mp hl
      exact ⟨v0, h0.1, hveq, hveq ▸ hgcclock v0, hveq ▸ hgctop v0⟩

/-- Witness for `prune_gc_frame`, instantiated at a one-child map with a
stale sibling removed. -/
theorem prune_gc_frame_witness :
    Shelf.prune (.value .null (.lamport 3)) = .value .null (.lamport 3) ∧
      sortedKeys [("b", Shelf.value (.int 7) (.dot 1 2))] = true ∧
      ((Shelf.prune (.map [("b", .value (.int 7) (.dot 1 2))] (.dot 0 2))).get1 "b" =
          some (.value (.int 7) (.dot 1 2)) →
        (Shelf.map [("b", .value (.int 7) (.dot 1 2))] (.dot 0 2)).get1 "b" =
          some (.value (.int 7) (.dot 1 2))) :=
  ⟨prune_gc_frame.1 .null (.lamport 3), rfl,
    prune_gc_frame.2.2.2.2.2.1 [("b", .value (.int 7) (.dot 1 2))] (.dot 0 2) rfl "b"
      (.value (.int 7) (.dot 1 2))⟩

end Shelf

/-- C5: evaluation of `set_state` when the path's entry is occupied by an
*empty* Map.  `highest_child_timestamp` is `None` for an empty map, so the
whole `Option::map` chain yields `None` and the fallback `parent_clock + 1`
ignores the replaced entry's clock: the new entry is stamped `lamport 1`,
which is *strictly less* than the replaced empty map's clock `lamport 5`,
contradicting the claimed strict monotonicity. -/
theorem set_state_ignores_empty_map_clock :
    Awareness.setState 0
        (.map [("0", .map [("k", .map [] (.lamport 5))] (.lamport 0))] (.lamport 0))
        ["k"] (.value .null (.lamport 99)) =
      .ok (.map [("0", .map [("k", .value .null (.lamport 1))] (.lamport 0))]
          (.lamport 0),
        some (.map [] (.lamport 5))) ∧
      Clock.cmp (.lamport 1) (.lamport 5) = some .lt := by
  constructor
  · have h0 : toString 0 = "0" := rfl
    simp [Awareness.setState, Awareness.setPath, Awareness.setEntry, Shelf.get1,
      Shelf.maxChildLogical, Shelf.insertSorted, Clock.logical, h0, lcmp_self]
    rfl
  · decide

/-- A concrete stand-in for std's `DefaultHasher` used in witnesses: hashes a
`(counter, value)` pair to the counter. -/
def hashCounter (c : Nat) (_ : Value) : Nat := c

namespace Shelf

/-- C3: evaluation of `secure_merge` on two Maps with equal clocks sharing a
key.  The common-key branch calls the *plain* `merge`, so the remote leaf —
whose clock fails `verify` — replaces the passing local leaf. -/
theorem secure_merge_admits_failing_leaf :
    Clock.verify hashCounter (.secure 1 1) (.int 1) = true ∧
      Clock.verify hashCounter (.secure 2 999) (.int 2) = false ∧
      secureMerge hashCounter
          (.map [("k", .value (.int 1) (.secure 1 1))] (.lamport 0))
          (.map [("k", .value (.int 2) (.secure 2 999))] (.lamport 0)) =
        some (.map [("k", .value (.int 2) (.secure 2 999))] (.lamport 0)) := by
  refine ⟨by decide, by decide, ?_⟩
  simp [secureMerge, secureMergeChildren, Shelf.merge, getClock, Clock.cmp, lcmp,
    Clock.tieBreak]

end Shelf

namespace Shelf

/-! Infrastructure for the delta-correctness proof (C2). -/

theorem sizeOf_lookup {k : String} {v : Shelf} :
    ∀ {l : List (String × Shelf)}, l.lookup k = some v → sizeOf v < sizeOf l := by
  intro l
  induction l with
  | nil => intro h; cases h
  | cons hd rest ih =>
    obtain ⟨k1, v1⟩ := hd
    intro h
    simp only [List.lookup] at h
    rcases hkk : k == k1 with _ | _
    · rw [hkk] at h
      have := ih h
      simp only [List.cons.sizeOf_spec, Prod.mk.sizeOf_spec]
      omega
    · rw [hkk] at h
      cases h
      simp only [List.cons.sizeOf_spec, Prod.mk.sizeOf_spec]
      omega

theorem wfKeys_map {shelves : List (String × Shelf)} {c : Clock}
    (h : wfKeys (.map shelves c) = true) :
    sortedKeys shelves = true ∧ wfKeysList shelves = true := by
  rw [wfKeys] at h
  exact Bool.and_eq_true _ _ |>.mp h

theorem wfKeysList_lookup {k : String} {v : Shelf} :
    ∀ {l : List (String × Shelf)}, wfKeysList l = true →
      l.lookup k = some v → wfKeys v = true := by
  intro l
  induction l with
  | nil => intro _ h; cases h
  | cons hd rest ih =>
    obtain ⟨k1, v1⟩ := hd
    intro hw hl
    rw [wfKeysList, Bool.and_eq_true] at hw
    simp only [List.lookup] at hl
    rcases hkk : k == k1 with _ | _
    · rw [hkk] at hl
      exact ih hw.2 hl
    · rw [hkk] at hl
      cases hl
      exact hw.1

theorem lamportMaps_map {shelves : List (String × Shelf)} {c : Clock}
    (h : lamportMaps (.map shelves c) = true) :
    clockIsLamport c = true ∧ lamportMapsList shelves = true := by
  rw [lamportMaps] at h
  exact Bool.and_eq_true _ _ |>.mp h

theorem lamportMapsList_lookup {k : String} {v : Shelf} :
    ∀ {l : List (String × Shelf)}, lamportMapsList l = true →
      l.lookup k = some v → lamportMaps v = true := by
  intro l
  induction l with
  | nil => intro _ h; cases h
  | cons hd rest ih =>
    obtain ⟨k1, v1⟩ := hd
    intro hw hl
    rw [lamportMapsList, Bool.and_eq_true] at hw
    simp only [List.lookup] at hl
    rcases hkk : k == k1 with _ | _
    · rw [hkk] at hl
      exact ih hw.2 hl
    · rw [hkk] at hl
      cases hl
      exact hw.1

theorem prunedShelf_map {shelves : List (String × Shelf)} {c : Clock}
    (h : prunedShelf (.map shelves c) = true) : prunedList c shelves = true := by
  rwa [prunedShelf] at h

theorem prunedList_lookup {k : String} {v : Shelf} {c : Clock} :
    ∀ {l : List (String × Shelf)}, prunedList c l = true →
      l.lookup k = some v →
        ¬Clock.cmp v.getClock c = some .lt ∧ prunedShelf v = true := by
  intro l
  induction l with
  | nil => intro _ h; cases h
  | cons hd rest ih =>
    obtain ⟨k1, v1⟩ := hd
    intro hw hl
    rw [prunedList, Bool.and_eq_true, Bool.and_eq_true] at hw
    simp only [List.lookup] at hl
    rcases hkk : k == k1 with _ | _
    · rw [hkk] at hl
      exact ih hw.2 hl
    · rw [hkk] at hl
      cases hl
      exact ⟨by simpa using hw.1.1, hw.1.2⟩

theorem clockIsLamport_iff {c : Clock} :
    clockIsLamport c = true ↔ ∃ n, c = .lamport n := by
  cases c <;> simp [clockIsLamport]

theorem lamport_cmp_total {x y : Nat} :
    ¬Clock.cmp (.lamport x) (.lamport y) = none := by
  simp [Clock.cmp]

theorem lookup_stateVectorList (k : String) :
    ∀ (l : List (String × Shelf)),
      (stateVectorList l).lookup k = (l.lookup k).map stateVector := by
  intro l
  induction l with
  | nil => rfl
  | cons hd rest ih =>
    obtain ⟨k1, v1⟩ := hd
    rw [stateVectorList]
    simp only [List.lookup]
    rcases hkk : k == k1 with _ | _
    · exact ih
    · rfl

/-- The per-child delta decision in the Map/Node branch of `get_state_delta`:
recurse when the peer knows the key, otherwise drop the child when it is
older than the peer's map clock, else clone it. -/
def deltaChild (svc : List (String × StateVector)) (svClock : Clock)
    (k : String) (v : Shelf) : Option Shelf :=
  match svc.lookup k with
  | some svChild => stateDelta v svChild
  | none => if Clock.cmp v.getClock svClock = some .lt then none else some v

theorem deltaChildren_cons (k : String) (v : Shelf) (rest : List (String × Shelf))
    (svc : List (String × StateVector)) (c : Clock) :
    deltaChildren ((k, v) :: rest) svc c =
      (match deltaChild svc c k v with
      | some dv => (k, dv) :: deltaChildren rest svc c
      | none => deltaChildren rest svc c) := by
  rw [Shelf.deltaChildren.eq_def, deltaChild]

theorem deltaChildren_keys (svc : List (String × StateVector)) (c : Clock)
    (p : String × Shelf) :
    ∀ (bs : List (String × Shelf)), p ∈ deltaChildren bs svc c →
      ∃ q ∈ bs, q.1 = p.1 := by
  intro bs
  induction bs with
  | nil => intro h; cases h
  | cons hd rest ih =>
    obtain ⟨kb, vb⟩ := hd
    intro hp
    rw [deltaChildren_cons] at hp
    rcases hd2 : deltaChild svc c kb vb with _ | dv
    · rw [hd2] at hp
      obtain ⟨q, hq, he⟩ := ih hp
      exact ⟨q, List.mem_cons_of_mem _ hq, he⟩
    · rw [hd2] at hp
      rcases List.mem_cons.mp hp with rfl | hp
      · exact ⟨(kb, vb), List.mem_cons_self _ _, rfl⟩
      · obtain ⟨q, hq, he⟩ := ih hp
        exact ⟨q, List.mem_cons_of_mem _ hq, he⟩

theorem deltaChildren_pairwise (svc : List (String × StateVector)) (c : Clock) :
    ∀ {bs : List (String × Shelf)}, bs.Pairwise (fun a b => a.1 < b.1) →
      (deltaChildren bs svc c).Pairwise (fun a b => a.1 < b.1) := by
  intro bs
  induction bs with
  | nil => intro _; exact List.Pairwise.nil
  | cons hd rest ih =>
    obtain ⟨kb, vb⟩ := hd
    intro h
    have htail := ih (List.Pairwise.sublist (List.sublist_cons_self _ _) h)
    rw [deltaChildren_cons]
    rcases hd2 : deltaChild svc c kb vb with _ | dv
    · exact htail
    · refine List.Pairwise.cons ?_ htail
      intro p hp
      obtain ⟨q, hq, he⟩ := deltaChildren_keys svc c p rest hp
      exact he ▸ List.rel_of_pairwise_cons h hq

theorem deltaChildren_lookup (svc : List (String × StateVector)) (c : Clock)
    (k : String) :
    ∀ {bs : List (String × Shelf)}, bs.Pairwise (fun a b => a.1 < b.1) →
      (deltaChildren bs svc c).lookup k =
        (bs.lookup k).bind (fun v => deltaChild svc c k v) := by
  intro bs
  induction bs with
  | nil => intro _; rfl
  | cons hd rest ih =>
    obtain ⟨kb, vb⟩ := hd
    intro h
    have htail := List.Pairwise.sublist (List.sublist_cons_self _ _) h
    rw [deltaChildren_cons]
    rcases hd2 : deltaChild svc c kb vb with _ | dv
    · rcases hkk : k == kb with _ | _
      · simp only [List.lookup, hkk]
        exact ih htail
      · obtain rfl : k = kb := by simpa [beq_iff_eq] using hkk
        have hnone : (deltaChildren rest svc c).lookup k = none := by
          apply lookup_eq_none_of_keys_lt
          intro p hp
          obtain ⟨q, hq, he⟩ := deltaChildren_keys svc c p rest hp
          have hlt := List.rel_of_pairwise_cons h hq
          intro hek
          rw [he, hek] at hlt
          exact absurd hlt (lt_irrefl k)
        simp only [List.lookup, beq_self_eq_true, hnone, hd2, Option.some_bind]
    · rcases hkk : k == kb with _ | _
      · simp only [List.lookup, hkk]
        exact ih htail
      · obtain rfl : k = kb := by simpa [beq_iff_eq] using hkk
        simp only [List.lookup, beq_self_eq_true, hd2, Option.some_bind]


/-! Shape lemmas for `stateDelta`, one per source branch. -/

theorem stateDelta_lt {b : Shelf} {sv : StateVector}
    (h : Clock.cmp b.getClock sv.getClock = some .lt) : stateDelta b sv = none := by
  cases b <;> cases sv <;> rw [Shelf.stateDelta.eq_def] <;> simp [h]

theorem stateDelta_gt {b : Shelf} {sv : StateVector}
    (h : Clock.cmp b.getClock sv.getClock = some .gt) : stateDelta b sv = some b := by
  cases b <;> cases sv <;> rw [Shelf.stateDelta.eq_def] <;> simp [h]

theorem stateDelta_map_node {bs : List (String × Shelf)}
    {svc : List (String × StateVector)} {cb svClock : Clock}
    (h : Clock.cmp cb svClock = some .eq ∨ Clock.cmp cb svClock = none) :
    stateDelta (.map bs cb) (.node svc svClock) =
      (if (deltaChildren bs svc svClock).isEmpty then none
        else some (.map (deltaChildren bs svc svClock) cb)) := by
  rw [Shelf.stateDelta.eq_def]
  rcases h with h | h <;> simp [getClock, StateVector.getClock, h]

theorem stateDelta_eq_value {v : Value} {c : Clock} {sv : StateVector}
    (h : Clock.cmp c sv.getClock = some .eq) :
    stateDelta (.value v c) sv = none := by
  cases sv <;> rw [Shelf.stateDelta.eq_def] <;> simp [getClock, h]

theorem stateDelta_eq_map_leaf {bs : List (String × Shelf)} {cb cl : Clock}
    (h : Clock.cmp cb cl = some .eq) :
    stateDelta (.map bs cb) (.leaf cl) = none := by
  rw [Shelf.stateDelta.eq_def]; simp [getClock, StateVector.getClock, h]

theorem stateDelta_none_value_node {v : Value} {c : Clock}
    {svc : List (String × StateVector)} {svClock : Clock}
    (h : Clock.cmp c svClock = none) :
    stateDelta (.value v c) (.node svc svClock) = none := by
  rw [Shelf.stateDelta.eq_def]; simp [getClock, StateVector.getClock, h]

theorem stateDelta_none_value_leaf {v : Value} {c cl : Clock}
    (h : Clock.cmp c cl = none) :
    stateDelta (.value v c) (.leaf cl) = some (.value v c) := by
  rw [Shelf.stateDelta.eq_def]; simp [getClock, StateVector.getClock, h]

theorem stateDelta_none_map_leaf {bs : List (String × Shelf)} {cb cl : Clock}
    (h : Clock.cmp cb cl = none) :
    stateDelta (.map bs cb) (.leaf cl) = some (.map bs cb) := by
  rw [Shelf.stateDelta.eq_def]; simp [getClock, StateVector.getClock, h]

theorem stateVector_value (v : Value) (c : Clock) :
    stateVector (.value v c) = .leaf c := by
  rw [stateVector]

theorem stateVector_map (shelves : List (String × Shelf)) (c : Clock) :
    stateVector (.map shelves c) = .node (stateVectorList shelves) c := by
  rw [stateVector]

/-- Prepending an entry whose key is below every key of the second list
commutes with the child zip. -/
theorem mergeChildren_cons_lt {ka : String} {va : Shelf}
    {as1 cs : List (String × Shelf)} (h : ∀ p ∈ cs, ka < p.1) :
    mergeChildren ((ka, va) :: as1) cs =
      (mergeChildren as1 cs).map (fun r => (ka, va) :: r) := by
  cases cs with
  | nil =>
    rw [mergeChildren_nil_right, mergeChildren_nil_right]
    rfl
  | cons hc cs' =>
    obtain ⟨kc, dc⟩ := hc
    have hlt : lcmp ka kc = .lt :=
      lcmp_lt_iff ka kc |>.mpr (h (kc, dc) (List.mem_cons_self _ _))
    rw [mergeChildren_cons, hlt]

/-- When the peer knows none of the keys and the children are not obsoleted
by the peer's map clock, the delta clones the whole child list. -/
theorem deltaChildren_all_missing :
    ∀ {bs : List (String × Shelf)} {svc : List (String × StateVector)} {c : Clock},
      (∀ p ∈ bs, svc.lookup p.1 = none) →
      prunedList c bs = true →
      deltaChildren bs svc c = bs := by
  intro bs
  induction bs with
  | nil => intro _ _ _ _; rfl
  | cons hd rest ih =>
    obtain ⟨kb, vb⟩ := hd
    intro svc c hmiss hp
    rw [prunedList, Bool.and_eq_true, Bool.and_eq_true] at hp
    rw [deltaChildren_cons]
    have hdc : deltaChild svc c kb vb = some vb := by
      rw [deltaChild, hmiss (kb, vb) (List.mem_cons_self _ _)]
      rw [if_neg (by simpa using hp.1.1)]
    rw [hdc, ih (fun p hp2 => hmiss p (List.mem_cons_of_mem _ hp2)) hp.2]


/-- Delta correctness at every shape except Map-vs-Map: a `none` delta means
`merge` keeps `self`, and a `some` delta is the whole remote shelf. -/
theorem delta_nonmap (a b : Shelf) (hnm : a.isMap = false ∨ b.isMap = false) :
    (stateDelta b (stateVector a) = none → merge a b = some a) ∧
    (∀ d, stateDelta b (stateVector a) = some d → merge a d = merge a b) := by
  cases a with
  | value va ca =>
    rw [stateVector_value]
    cases b with
    | value vb cb =>
      cases hcc : Clock.cmp cb ca with
      | some o =>
        cases o with
        | lt =>
          refine ⟨fun _ => ?_, fun d hd => ?_⟩
          · exact merge_gt (a := .value va ca) (b := .value vb cb)
              (by simp only [getClock]; rw [Clock.cmp_swap, hcc]; rfl)
          · rw [@stateDelta_lt (.value vb cb) (.leaf ca) hcc] at hd
            cases hd
        | gt =>
          refine ⟨fun h => ?_, fun d hd => ?_⟩
          · rw [@stateDelta_gt (.value vb cb) (.leaf ca) hcc] at h
            cases h
          · rw [@stateDelta_gt (.value vb cb) (.leaf ca) hcc] at hd
            cases hd
            rfl
        | eq =>
          refine ⟨fun _ => ?_, fun d hd => ?_⟩
          · exact merge_eq_self (a := .value va ca) (b := .value vb cb)
              (by simp only [getClock]; rw [Clock.cmp_swap, hcc]; rfl) (.inl rfl)
          · rw [@stateDelta_eq_value vb cb (.leaf ca) hcc] at hd
            cases hd
      | none =>
        refine ⟨fun h => ?_, fun d hd => ?_⟩
        · rw [@stateDelta_none_value_leaf vb cb ca hcc] at h
          cases h
        · rw [@stateDelta_none_value_leaf vb cb ca hcc] at hd
          cases hd
          rfl
    | map bs cb =>
      cases hcc : Clock.cmp cb ca with
      | some o =>
        cases o with
        | lt =>
          refine ⟨fun _ => ?_, fun d hd => ?_⟩
          · exact merge_gt (a := .value va ca) (b := .map bs cb)
              (by simp only [getClock]; rw [Clock.cmp_swap, hcc]; rfl)
          · rw [@stateDelta_lt (.map bs cb) (.leaf ca) hcc] at hd
            cases hd
        | gt =>
          refine ⟨fun h => ?_, fun d hd => ?_⟩
          · rw [@stateDelta_gt (.map bs cb) (.leaf ca) hcc] at h
            cases h
          · rw [@stateDelta_gt (.map bs cb) (.leaf ca) hcc] at hd
            cases hd
            rfl
        | eq =>
          refine ⟨fun _ => ?_, fun d hd => ?_⟩
          · exact merge_eq_self (a := .value va ca) (b := .map bs cb)
              (by simp only [getClock]; rw [Clock.cmp_swap, hcc]; rfl) (.inl rfl)
          · rw [@stateDelta_eq_map_leaf bs cb ca hcc] at hd
            cases hd
      | none =>
        refine ⟨fun h => ?_, fun d hd => ?_⟩
        · rw [@stateDelta_none_map_leaf bs cb ca hcc] at h
          cases h
        · rw [@stateDelta_none_map_leaf bs cb ca hcc] at hd
          cases hd
          rfl
  | map as1 ca =>
    rw [stateVector_map]
    cases b with
    | value vb cb =>
      cases hcc : Clock.cmp cb ca with
      | some o =>
        cases o with
        | lt =>
          refine ⟨fun _ => ?_, fun d hd => ?_⟩
          · exact merge_gt (a := .map as1 ca) (b := .value vb cb)
              (by simp only [getClock]; rw [Clock.cmp_swap, hcc]; rfl)
          · rw [@stateDelta_lt (.value vb cb) (.node (stateVectorList as1) ca) hcc] at hd
            cases hd
        | gt =>
          refine ⟨fun h => ?_, fun d hd => ?_⟩
          · rw [@stateDelta_gt (.value vb cb) (.node (stateVectorList as1) ca) hcc] at h
            cases h
          · rw [@stateDelta_gt (.value vb cb) (.node (stateVectorList as1) ca) hcc] at hd
            cases hd
            rfl
        | eq =>
          refine ⟨fun _ => ?_, fun d hd => ?_⟩
          · exact merge_eq_self (a := .map as1 ca) (b := .value vb cb)
              (by simp only [getClock]; rw [Clock.cmp_swap, hcc]; rfl) (.inr rfl)
          · rw [@stateDelta_eq_value vb cb (.node (stateVectorList as1) ca) hcc] at hd
            cases hd
      | none =>
        have hcc' : Clock.cmp ca cb = none := by rw [Clock.cmp_swap, hcc]; rfl
        refine ⟨fun _ => ?_, fun d hd => ?_⟩
        · rw [merge_none (a := .map as1 ca) (b := .value vb cb) hcc' (.inr rfl)]
          have hgt : cmpS (Shelf.map as1 ca) (Shelf.value vb cb) = some .gt := by
            simp [cmpS, hcc']
          rw [hgt]
        · rw [@stateDelta_none_value_node vb cb (stateVectorList as1) ca hcc] at hd
          cases hd
    | map bs cb =>
      rcases hnm with h | h <;> simp [isMap] at h


/-- Master lemma for delta correctness, by strong induction on the combined
size.  Shelf level: a `none` delta means `merge` keeps `self`; a `some` delta
merges exactly like the full remote shelf.  List level: zipping the local
children against the child deltas equals zipping them against the full remote
children, provided the state-vector list agrees with the local children on
every remote key. -/
theorem deltaMergeAux :
    ∀ n : Nat,
      (∀ a b : Shelf, sizeOf a + sizeOf b ≤ n →
        wfKeys a = true → wfKeys b = true →
        lamportMaps a = true → lamportMaps b = true →
        prunedShelf b = true →
        (stateDelta b (stateVector a) = none → merge a b = some a) ∧
        (∀ d, stateDelta b (stateVector a) = some d → merge a d = merge a b)) ∧
      (∀ (as1 bs : List (String × Shelf)) (svc : List (String × StateVector))
        (c : Clock),
        sizeOf as1 + sizeOf bs ≤ n →
        as1.Pairwise (fun p q => p.1 < q.1) →
        bs.Pairwise (fun p q => p.1 < q.1) →
        wfKeysList as1 = true → wfKeysList bs = true →
        lamportMapsList as1 = true → lamportMapsList bs = true →
        prunedList c bs = true →
        (∀ k, k ∈ bs.map Prod.fst →
          svc.lookup k = (as1.lookup k).map stateVector) →
        mergeChildren as1 (deltaChildren bs svc c) = mergeChildren as1 bs) := by
  intro n
  induction n using Nat.strong_induction_on with
  | _ n ih =>
  constructor
  · intro a b hsize hwa hwb hla hlb hpb
    cases a with
    | value va ca => exact delta_nonmap (.value va ca) b (.inl rfl)
    | map as1 ca =>
      cases b with
      | value vb cb => exact delta_nonmap (.map as1 ca) (.value vb cb) (.inr rfl)
      | map bs cb =>
        obtain ⟨x, rfl⟩ := clockIsLamport_iff.mp (lamportMaps_map hla).1
        obtain ⟨y, rfl⟩ := clockIsLamport_iff.mp (lamportMaps_map hlb).1
        rw [stateVector_map]
        cases hcc : lcmp y x with
        | lt =>
          have hco : Clock.cmp (Clock.lamport y) (Clock.lamport x) = some .lt := by
            rw [Clock.cmp, hcc]
          refine ⟨fun _ => ?_, fun d hd => ?_⟩
          · exact merge_gt (a := .map as1 (.lamport x)) (b := .map bs (.lamport y))
              (by simp only [getClock]; rw [Clock.cmp_swap, hco]; rfl)
          · rw [@stateDelta_lt (.map bs (.lamport y)) (.node (stateVectorList as1) (.lamport x)) hco] at hd
            cases hd
        | gt =>
          have hco : Clock.cmp (Clock.lamport y) (Clock.lamport x) = some .gt := by
            rw [Clock.cmp, hcc]
          refine ⟨fun h => ?_, fun d hd => ?_⟩
          · rw [@stateDelta_gt (.map bs (.lamport y)) (.node (stateVectorList as1) (.lamport x)) hco] at h
            cases h
          · rw [@stateDelta_gt (.map bs (.lamport y)) (.node (stateVectorList as1) (.lamport x)) hco] at hd
            cases hd
            rfl
        | eq =>
          have hyx : y = x := lcmp_eq_iff y x |>.mp hcc
          subst hyx
          have hco : Clock.cmp (Clock.lamport y) (Clock.lamport y) = some .eq :=
            Clock.cmp_self _
          have hlist : mergeChildren as1
              (deltaChildren bs (stateVectorList as1) (.lamport y)) =
              mergeChildren as1 bs := by
            have hlt : sizeOf as1 + sizeOf bs < n := by
              have h1 : sizeOf (Shelf.map as1 (Clock.lamport y)) +
                  sizeOf (Shelf.map bs (Clock.lamport y)) ≤ n := hsize
              simp only [Shelf.map.sizeOf_spec] at h1
              omega
            exact (ih _ hlt).2 as1 bs (stateVectorList as1) (.lamport y) le_rfl
              (sortedKeys_pairwise as1 (wfKeys_map hwa).1)
              (sortedKeys_pairwise bs (wfKeys_map hwb).1)
              (wfKeys_map hwa).2 (wfKeys_map hwb).2
              (lamportMaps_map hla).2 (lamportMaps_map hlb).2
              (prunedShelf_map hpb)
              (fun k _ => lookup_stateVectorList k as1)
          have hmm := @merge_mm as1 bs (Clock.lamport y) (Clock.lamport y) (.inl hco)
          have hifc : (if Clock.cmp (Clock.lamport y) (Clock.lamport y) = some .gt
              then Clock.lamport y else Clock.lamport y) = Clock.lamport y := by
            rw [if_neg (by rw [hco]; simp)]
          rw [hifc] at hmm
          refine ⟨fun h => ?_, fun d hd => ?_⟩
          · rw [stateDelta_map_node (.inl hco)] at h
            have hempty : deltaChildren bs (stateVectorList as1) (.lamport y) = [] := by
              rcases he : deltaChildren bs (stateVectorList as1) (.lamport y)
                with _ | ⟨p, cs'⟩
              · rfl
              · rw [he] at h
                simp at h
            rw [hempty, mergeChildren_nil_right] at hlist
            rw [hmm, ← hlist]
            rfl
          · rw [stateDelta_map_node (.inl hco)] at hd
            rcases he : deltaChildren bs (stateVectorList as1) (.lamport y)
              with _ | ⟨p, cs'⟩
            · rw [he] at hd
              simp at hd
            · rw [he, if_neg (by simp)] at hd
              cases hd
              have hmmd := @merge_mm as1 (p :: cs') (Clock.lamport y) (Clock.lamport y) (.inl hco)
              rw [hifc] at hmmd
              rw [hmmd, hmm, ← he, hlist]
  · intro as1 bs svc c hsize hpa hpb hwla hwlb hlla hllb hpl hsvc
    cases bs with
    | nil =>
      rw [Shelf.deltaChildren.eq_def]
    | cons hb bs' =>
      obtain ⟨kb, vb⟩ := hb
      cases as1 with
      | nil =>
        have hmiss : ∀ p ∈ (kb, vb) :: bs', svc.lookup p.1 = none := by
          intro p hp
          have := hsvc p.1 (List.mem_map_of_mem Prod.fst hp)
          simpa using this
        rw [deltaChildren_all_missing hmiss hpl]
      | cons ha as1' =>
        obtain ⟨ka, va⟩ := ha
        have hpa' := List.Pairwise.sublist (List.sublist_cons_self _ _) hpa
        have hpb' := List.Pairwise.sublist (List.sublist_cons_self _ _) hpb
        rw [wfKeysList, Bool.and_eq_true] at hwla hwlb
        rw [lamportMapsList, Bool.and_eq_true] at hlla hllb
        rw [prunedList, Bool.and_eq_true, Bool.and_eq_true] at hpl
        cases hk : lcmp ka kb with
        | lt =>
          have hkab : ka < kb := lcmp_lt_iff ka kb |>.mp hk
          have hkeys : ∀ p ∈ deltaChildren ((kb, vb) :: bs') svc c, ka < p.1 := by
            intro p hp
            obtain ⟨q, hq, he⟩ := deltaChildren_keys svc c p ((kb, vb) :: bs') hp
            rcases List.mem_cons.mp hq with rfl | hq
            · exact he ▸ hkab
            · exact he ▸ lt_trans hkab (List.rel_of_pairwise_cons hpb hq)
          rw [mergeChildren_cons_lt hkeys]
          have hsvc' : ∀ k, k ∈ ((kb, vb) :: bs').map Prod.fst →
              svc.lookup k = (as1'.lookup k).map stateVector := by
            intro k hkmem
            have hkgt : ka < k := by
              rcases List.mem_map.mp hkmem with ⟨q, hq, he⟩
              rcases List.mem_cons.mp hq with rfl | hq
              · exact he ▸ hkab
              · exact he ▸ lt_trans hkab (List.rel_of_pairwise_cons hpb hq)
            have hka : (k == ka) = false := by
              simp only [beq_eq_false_iff_ne, ne_eq]
              intro h2
              rw [h2] at hkgt
              exact absurd hkgt (lt_irrefl ka)
            have := hsvc k hkmem
            simp only [List.lookup, hka] at this ⊢
            exact this
          have hlt : sizeOf as1' + sizeOf ((kb, vb) :: bs') < n := by
            have h1 : sizeOf ((ka, va) :: as1') + sizeOf ((kb, vb) :: bs') ≤ n := hsize
            simp only [List.cons.sizeOf_spec] at h1 ⊢
            omega
          rw [(ih _ hlt).2 as1' ((kb, vb) :: bs') svc c le_rfl hpa' hpb
            hwla.2 (by rw [wfKeysList, Bool.and_eq_true]; exact hwlb)
            hlla.2 (by rw [lamportMapsList, Bool.and_eq_true]; exact hllb)
            (by rw [prunedList, Bool.and_eq_true, Bool.and_eq_true]; exact hpl)
            hsvc']
          rw [mergeChildren_cons, hk]
        | eq =>
          obtain rfl : ka = kb := lcmp_eq_iff ka kb |>.mp hk
          have hsvhead : svc.lookup ka = some (stateVector va) := by
            have := hsvc ka (by simp)
            simpa [List.lookup] using this
          have hdc : deltaChild svc c ka vb = stateDelta vb (stateVector va) := by
            rw [deltaChild, hsvhead]
          have hszpair : sizeOf va + sizeOf vb < n := by
            have h1 : sizeOf ((ka, va) :: as1') + sizeOf ((ka, vb) :: bs') ≤ n := hsize
            simp only [List.cons.sizeOf_spec, Prod.mk.sizeOf_spec] at h1
            omega
          have hshelf := (ih _ hszpair).1 va vb le_rfl hwla.1 hwlb.1 hlla.1 hllb.1
            hpl.1.2
          have hsvc' : ∀ k, k ∈ bs'.map Prod.fst →
              svc.lookup k = (as1'.lookup k).map stateVector := by
            intro k hkmem
            have hkgt : ka < k := by
              rcases List.mem_map.mp hkmem with ⟨q, hq, he⟩
              exact he ▸ List.rel_of_pairwise_cons hpb hq
            have hka : (k == ka) = false := by
              simp only [beq_eq_false_iff_ne, ne_eq]
              intro h2
              rw [h2] at hkgt
              exact absurd hkgt (lt_irrefl ka)
            have := hsvc k (by
              rcases List.mem_map.mp hkmem with ⟨q, hq, he⟩
              exact List.mem_map.mpr ⟨q, List.mem_cons_of_mem _ hq, he⟩)
            simp only [List.lookup, hka] at this ⊢
            exact this
          have hlt2 : sizeOf as1' + sizeOf bs' < n := by
            have h1 : sizeOf ((ka, va) :: as1') + sizeOf ((ka, vb) :: bs') ≤ n := hsize
            simp only [List.cons.sizeOf_spec] at h1 ⊢
            omega
          have hlist2 := (ih _ hlt2).2 as1' bs' svc c le_rfl hpa' hpb' hwla.2 hwlb.2
            hlla.2 hllb.2 hpl.2 hsvc'
          rw [deltaChildren_cons, hdc]
          rcases hdk : stateDelta vb (stateVector va) with _ | dv
          · have hva : merge va vb = some va := hshelf.1 hdk
            have hkeys : ∀ p ∈ deltaChildren bs' svc c, ka < p.1 := by
              intro p hp
              obtain ⟨q, hq, he⟩ := deltaChildren_keys svc c p bs' hp
              exact he ▸ List.rel_of_pairwise_cons hpb hq
            rw [mergeChildren_cons_lt hkeys, hlist2]
            rw [mergeChildren_cons, lcmp_self, hva]
            cases hmc : mergeChildren as1' bs' with
            | none => rfl
            | some r => rfl
          · have hvd : merge va dv = merge va vb := hshelf.2 dv hdk
            rw [mergeChildren_cons, lcmp_self, mergeChildren_cons, lcmp_self,
              hvd, hlist2]
        | gt =>
          have hkba : kb < ka := lcmp_gt_iff ka kb |>.mp hk
          have hsvnone : svc.lookup kb = none := by
            have h0 := hsvc kb (by simp)
            have hne : (kb == ka) = false := by
              simp only [beq_eq_false_iff_ne, ne_eq]
              intro h2
              rw [h2] at hkba
              exact absurd hkba (lt_irrefl ka)
            have hlk : List.lookup kb ((ka, va) :: as1') = none := by
              simp only [List.lookup, hne]
              apply lookup_eq_none_of_keys_lt
              intro p hp
              have hgt := List.rel_of_pairwise_cons hpa hp
              intro he
              rw [he] at hgt
              exact absurd (lt_trans hkba hgt) (lt_irrefl kb)
            rw [hlk] at h0
            simpa using h0
          have hdc : deltaChild svc c kb vb = some vb := by
            rw [deltaChild, hsvnone, if_neg (by simpa using hpl.1.1)]
          rw [deltaChildren_cons, hdc]
          have hlt3 : sizeOf ((ka, va) :: as1') + sizeOf bs' < n := by
            have h1 : sizeOf ((ka, va) :: as1') + sizeOf ((kb, vb) :: bs') ≤ n := hsize
            simp only [List.cons.sizeOf_spec] at h1 ⊢
            omega
          have hlist3 := (ih _ hlt3).2 ((ka, va) :: as1') bs' svc c le_rfl hpa hpb'
            (by rw [wfKeysList, Bool.and_eq_true]; exact hwla) hwlb.2
            (by rw [lamportMapsList, Bool.and_eq_true]; exact hlla) hllb.2
            hpl.2
            (fun k hkm => hsvc k (by
              rcases List.mem_map.mp hkm with ⟨q, hq, he⟩
              exact List.mem_map.mpr ⟨q, List.mem_cons_of_mem _ hq, he⟩))
          rw [mergeChildren_cons, hk, mergeChildren_cons, hk, hlist3]


/-- C2 counterexample: `b` holds a child (`"k"`, clock 3) strictly older than
its own map clock (5), violating the pruned invariant.  Against an empty peer
with the same map clock the delta omits `"k"` (it is below the peer's map
clock), yet the direct merge inserts it, so the two merges differ. -/
theorem delta_merge_counterexample :
    stateDelta
        (.map [("j", .value (.int 7) (.lamport 6)),
          ("k", .value (.int 1) (.lamport 3))] (.lamport 5))
        (stateVector (.map [] (.lamport 5))) =
      some (.map [("j", .value (.int 7) (.lamport 6))] (.lamport 5)) ∧
    merge (.map [] (.lamport 5)) (.map [("j", .value (.int 7) (.lamport 6))] (.lamport 5)) ≠
      merge (.map [] (.lamport 5))
        (.map [("j", .value (.int 7) (.lamport 6)),
          ("k", .value (.int 1) (.lamport 3))] (.lamport 5)) := by
  refine ⟨by decide, ?_⟩
  have h1 : merge (.map [] (.lamport 5))
      (.map [("j", .value (.int 7) (.lamport 6))] (.lamport 5)) =
      some (.map [("j", .value (.int 7) (.lamport 6))] (.lamport 5)) := by
    simp [Shelf.merge, Shelf.mergeChildren, getClock, Clock.cmp, lcmp]
  have h2 : merge (.map [] (.lamport 5))
      (.map [("j", .value (.int 7) (.lamport 6)),
        ("k", .value (.int 1) (.lamport 3))] (.lamport 5)) =
      some (.map [("j", .value (.int 7) (.lamport 6)),
        ("k", .value (.int 1) (.lamport 3))] (.lamport 5)) := by
    simp [Shelf.merge, Shelf.mergeChildren, getClock, Clock.cmp, lcmp]
  rw [h1, h2]
  decide

/-- C2 (amended): delta correctness holds for shelves as the repository
builds them: all map clocks are Lamport timestamps (true of every `Shelf`
instantiation in the repository), children lists are well-formed, and the
remote shelf satisfies the pruned invariant (spec §3.3 invariant 2, enforced
by `garbage_collect`).  Then whenever `get_state_delta` is defined, merging
the delta is the same as merging the full remote shelf. -/
theorem merge_delta_eq_merge (a b d : Shelf)
    (hwa : wfKeys a = true) (hwb : wfKeys b = true)
    (hla : lamportMaps a = true) (hlb : lamportMaps b = true)
    (hpb : prunedShelf b = true)
    (hd : stateDelta b (stateVector a) = some d) :
    merge a d = merge a b :=
  ((deltaMergeAux (sizeOf a + sizeOf b)).1 a b le_rfl hwa hwb hla hlb hpb).2 d hd

/-- Witness for `merge_delta_eq_merge` on concrete one-child shelves. -/
theorem merge_delta_eq_merge_witness :
    wfKeys (.map [("j", .value (.int 1) (.lamport 2))] (.lamport 0)) = true ∧
      wfKeys (.map [("j", .value (.int 7) (.lamport 6))] (.lamport 0)) = true ∧
      lamportMaps (.map [("j", .value (.int 1) (.lamport 2))] (.lamport 0)) = true ∧
      lamportMaps (.map [("j", .value (.int 7) (.lamport 6))] (.lamport 0)) = true ∧
      prunedShelf (.map [("j", .value (.int 7) (.lamport 6))] (.lamport 0)) = true ∧
      stateDelta (.map [("j", .value (.int 7) (.lamport 6))] (.lamport 0))
          (stateVector (.map [("j", .value (.int 1) (.lamport 2))] (.lamport 0))) =
        some (.map [("j", .value (.int 7) (.lamport 6))] (.lamport 0)) ∧
      merge (.map [("j", .value (.int 1) (.lamport 2))] (.lamport 0))
          (.map [("j", .value (.int 7) (.lamport 6))] (.lamport 0)) =
        merge (.map [("j", .value (.int 1) (.lamport 2))] (.lamport 0))
          (.map [("j", .value (.int 7) (.lamport 6))] (.lamport 0)) :=
  ⟨by decide, by decide, by decide, by decide, by decide, by decide,
    merge_delta_eq_merge
      (.map [("j", .value (.int 1) (.lamport 2))] (.lamport 0))
      (.map [("j", .value (.int 7) (.lamport 6))] (.lamport 0))
      (.map [("j", .value (.int 7) (.lamport 6))] (.lamport 0))
      (by decide) (by decide) (by decide) (by decide) (by decide) (by decide)⟩

end Shelf

end ShelfCRDT
